import Mathlib

/-!
Verification of the routing-decision engine in `controller/RouteController.py`
(Selfless Traffic Routing Testbed).

The Python source is shallowly embedded: edge and direction identifiers are
`String`s, scalar quantities (edge lengths, occupancy counts, speeds,
deadlines, distances) are `Nat`, and Python dictionaries (which preserve
insertion order) are association lists with the update-in-place /
append-if-new semantics of `dict` assignment.  The three operations of the
source are embedded as
  * `cltAux` / `compute_local_target`   (lines 49-82 of the source),
  * `findRouteAux` / `find_route`       (lines 99-134),
  * `choiceLoop` / `planAux` / `make_decisions` (lines 139-202).
Unbounded `while` loops are given an explicit fuel argument; exhausting the
fuel yields a distinguished result, and we prove that the fuel supplied by
the wrapper definitions is never exhausted, so the fuel is an artifact of
the embedding, not a change of semantics.  Uncaught Python exceptions
(`KeyError` on a missing dictionary key, `IndexError` on an empty list) are
modelled by an explicit error result.
-/

namespace STR

abbrev Edge := String
abbrev Dir := String

/-- The network snapshot handed to the controller
(`ConnectionInfo` in `core/Util`, as consumed by `RouteController`):
`edge_list` is the list of edge ids, `outgoing_edges_dict` maps an edge to
its ordered (direction, next-edge) dictionary, `edge_length_dict` and
`edge_vehicle_count` give each edge's length and occupancy.  The three maps
are total functions, mirroring the host contract that every edge has an
entry (a dead end has an empty outgoing dictionary). -/
structure ConnectionInfo where
  edge_list : List Edge
  outgoing_edges_dict : Edge → List (Dir × Edge)
  edge_length_dict : Edge → Nat
  edge_vehicle_count : Edge → Nat

/-- A vehicle as consumed by `make_decisions` / `compute_local_target`. -/
structure Vehicle where
  vehicle_id : String
  current_edge : Edge
  destination : Edge
  current_speed : Nat
  deadline : Nat

/-! ### Ordered-dictionary primitives (Python `dict` on association lists) -/

/-- Dictionary lookup: first binding of key `k`. -/
def dictGet {α : Type} (k : String) : List (String × α) → Option α
  | [] => none
  | (k', v) :: rest => if k' = k then some v else dictGet k rest

/-- Dictionary assignment `d[k] = v`: updates the binding in place if the
key is present, otherwise appends it (Python dicts preserve insertion
order). -/
def dictSet {α : Type} (k : String) (v : α) : List (String × α) → List (String × α)
  | [] => [(k, v)]
  | (k', v') :: rest => if k' = k then (k, v) :: rest else (k', v') :: dictSet k v rest

/-- Dictionary deletion `del d[k]` (first binding). -/
def dictDel {α : Type} (k : String) : List (String × α) → List (String × α)
  | [] => []
  | (k', v') :: rest => if k' = k then rest else (k', v') :: dictDel k rest

/-- `{k: v for k in ks}` with a constant value, built left to right. -/
def buildDict {α : Type} (v : α) : List String → List (String × α) → List (String × α)
  | [], d => d
  | k :: rest, d => buildDict v rest (dictSet k v d)

/-- The keys of an association list. -/
def keys {α : Type} (d : List (String × α)) : List String := d.map Prod.fst

/-! ### The local-target resolver (`compute_local_target`, source lines 49-82)

The source walks the decision list, accumulating `path_length`, while
`path_length <= max(vehicle.current_speed, 20)`.  The two `raise
UserWarning` sites are caught by the surrounding `try`, which then returns
the current target edge; so every exit returns the last edge reached.  The
exit tag records which exit the source took; the `Nat` component is the
final value of the `path_length` variable. -/

inductive LTExit where
  | distReached  -- while-condition became false: target far enough away
  | atDest       -- current target edge is the destination (line 57)
  | exhausted    -- decision list exhausted, UserWarning (line 59)
  | invalidDir   -- direction not in outgoing dict, UserWarning (line 65)
  | turnLoop     -- two consecutive turn-arounds (line 72)
deriving DecidableEq, Repr

/-- One-to-one embedding of the loop of `compute_local_target`.
`prev` is `decision_list[i-1]` (`none` when `i = 0`), `pl` the running
`path_length`, `cur` the running `current_target_edge`. -/
def cltAux (ci : ConnectionInfo) (v : Vehicle) :
    List Dir → Option Dir → Nat → Edge → Edge × LTExit × Nat
  | rest, prev, pl, cur =>
    if pl ≤ max v.current_speed 20 then
      if cur = v.destination then (cur, .atDest, pl)
      else
        match rest with
        | [] => (cur, .exhausted, pl)
        | choice :: rest' =>
          match dictGet choice (ci.outgoing_edges_dict cur) with
          | none => (cur, .invalidDir, pl)
          | some e =>
            let pl' := pl + ci.edge_length_dict e
            if prev = some choice ∧ choice = "t" then (e, .turnLoop, pl')
            else cltAux ci v rest' (some choice) pl' e
    else (cur, .distReached, pl)

/-- `compute_local_target(decision_list, vehicle)`: the edge returned to the
caller (identical on every exit path of the source, since the `except`
clause only prints the warning and falls through to `return`). -/
def compute_local_target (ci : ConnectionInfo) (decision_list : List Dir) (v : Vehicle) : Edge :=
  (cltAux ci v decision_list none 0 v.current_edge).1

/-- Prefix run of the resolver loop: consume exactly the given decisions
without triggering any exit of `cltAux` (lookahead reached, at destination,
invalid direction, turn-around pair), returning the loop state
`(prev, path_length, current_target_edge)` afterwards, and `none` if some
exit fires inside the prefix.  Each test mirrors the corresponding test of
`cltAux`, so a successful run composes with `cltAux` on any continuation
(`cltRun_sound` below). -/
def cltRun (ci : ConnectionInfo) (v : Vehicle) :
    List Dir → Option Dir → Nat → Edge → Option (Option Dir × Nat × Edge)
  | [], prev, pl, cur => some (prev, pl, cur)
  | choice :: rest', prev, pl, cur =>
    if pl ≤ max v.current_speed 20 then
      if cur = v.destination then none
      else
        match dictGet choice (ci.outgoing_edges_dict cur) with
        | none => none
        | some e =>
          if prev = some choice ∧ choice = "t" then none
          else cltRun ci v rest' (some choice) (pl + ci.edge_length_dict e) e
    else none

/-! ### Walks through the topology (specification-side vocabulary)

`followCost ci e dl` walks the decision list `dl` from edge `e` through the
outgoing-edges dictionaries and returns the final edge together with the
cumulative distance in the convention of `find_route`: the length of the
starting edge plus the lengths of all edges entered along the walk. -/

def followCost (ci : ConnectionInfo) : Edge → List Dir → Option (Edge × Nat)
  | e, [] => some (e, ci.edge_length_dict e)
  | e, d :: ds =>
    match dictGet d (ci.outgoing_edges_dict e) with
    | none => none
    | some e' =>
      match followCost ci e' ds with
      | none => none
      | some (t, c) => some (t, ci.edge_length_dict e + c)

/-- The sum of the lengths of the edges *entered* along a walk (the start
edge's own length excluded); used to state the distance convention of
`find_route`. -/
def enteredCost (ci : ConnectionInfo) : Edge → List Dir → Option Nat
  | _, [] => some 0
  | e, d :: ds =>
    match dictGet d (ci.outgoing_edges_dict e) with
    | none => none
    | some e' =>
      match enteredCost ci e' ds with
      | none => none
      | some c => some (ci.edge_length_dict e' + c)

/-! ### The shortest-path search (`find_route`, source lines 99-134) -/

/-- The sentinel used by the source for "not yet reached" (line 101). -/
def INF : Nat := 1000000000

/-- The relaxation loop (source lines 109-118): for each `(direction,
outgoing_edge)` of the settled edge `cur`, if `outgoing_edge` is still
unvisited and `cur_dist + length(outgoing_edge)` improves its tentative
distance, update the distance and record the decision sequence
`path_lists[cur] + [direction]` (the source deep-copies, i.e. value
semantics, which the functional embedding has natively). -/
def relaxLoop (ci : ConnectionInfo) (cur : Edge) (cur_dist : Nat) :
    List (Dir × Edge) → List (Edge × Nat) → List (Edge × List Dir) →
    List (Edge × Nat) × List (Edge × List Dir)
  | [], U, P => (U, P)
  | (direction, oe) :: rest, U, P =>
    match dictGet oe U with
    | none => relaxLoop ci cur cur_dist rest U P
    | some doe =>
      let new_distance := cur_dist + ci.edge_length_dict oe
      if new_distance < doe then
        relaxLoop ci cur cur_dist rest (dictSet oe new_distance U)
          (dictSet oe ((dictGet cur P).getD [] ++ [direction]) P)
      else relaxLoop ci cur cur_dist rest U P

/-- `sorted(possible_edges, key=lambda x: x[1])[0]` (source line 128):
Python's sort is stable, so the first element after sorting by value is the
leftmost pair with minimal value, which this fold computes.  `none` models
the `IndexError` on an empty list. -/
def selectMin : List (Edge × Nat) → Option (Edge × Nat)
  | [] => none
  | p :: rest => some (rest.foldl (fun best q => if q.2 < best.2 then q else best) p)

/-- The `while True` loop of `find_route` (source lines 106-128), with
explicit fuel.  State: current edge and distance, the `unvisited` dict `U`,
the `path_lists` dict `P`, and the (write-only) `visited` dict `V`.
Each iteration relaxes the outgoing edges of `cur`, records `cur` as
visited, deletes it from `U`, and stops when `U` is empty or `cur` is the
destination; otherwise it selects the unvisited edge with smallest nonzero
tentative distance.  (The `continue` guard at source line 107 is
unreachable here because `outgoing_edges_dict` is total: every edge has an
entry, a dead end an empty one.)  `none` models the `IndexError` of line
128 on an empty candidate list, or fuel exhaustion. -/
def findRouteAux (ci : ConnectionInfo) (dest : Edge) :
    Nat → Edge → Nat → List (Edge × Nat) → List (Edge × List Dir) → List (Edge × Nat) →
    Option (List (Edge × List Dir) × Nat × List (Edge × Nat))
  | 0, _, _, _, _, _ => none
  | fuel + 1, cur, cur_dist, U, P, V =>
    let UP := relaxLoop ci cur cur_dist (ci.outgoing_edges_dict cur) U P
    let V' := dictSet cur cur_dist V
    let U' := dictDel cur UP.1
    if U' = [] then some (UP.2, cur_dist, V')
    else if cur = dest then some (UP.2, cur_dist, V')
    else
      match selectMin (U'.filter (fun p => decide (p.2 ≠ 0))) with
      | none => none
      | some (e, d) => findRouteAux ci dest fuel e d U' UP.2 V'

/-- `find_route(connection_info, current_edge, destination, deadline)`
(source lines 99-134).  The `deadline` parameter is accepted and ignored,
as in the source; the source also ignores its `connection_info` parameter
in favour of `self.connection_info`, which is the `ci` here.  The start
edge's tentative distance is initialised to its own length (line 103).
The fuel `edge_list.length + 2` is proved sufficient below: each iteration
removes one key from `U`.  The final `(dictGet destination P).getD []`
is `path_lists[destination]`; the `.getD []` branch corresponds to the
`KeyError` a destination outside `edge_list` would raise in the source, and
every theorem below assumes the destination is listed. -/
def find_route (ci : ConnectionInfo) (current_edge destination : Edge) (deadline : Nat) :
    Option (List Dir × Nat) :=
  let current_distance := ci.edge_length_dict current_edge
  let unvisited := dictSet current_edge current_distance (buildDict INF ci.edge_list [])
  let path_lists := buildDict ([] : List Dir) ci.edge_list []
  match findRouteAux ci destination (ci.edge_list.length + 2) current_edge current_distance
      unvisited path_lists [] with
  | none => none
  | some (P, d, _) => some ((dictGet destination P).getD [], d)

/-! ### The decision policy (`make_decisions`, source lines 139-202) -/

/-- Result of planning one vehicle's decision list (the `while current_edge
!= vehicle.destination` loop, lines 165-198).  `exn` models an uncaught
Python exception (`KeyError`/`IndexError`); `fuelOut` is exhaustion of the
embedding's fuel, proved unreachable for well-formed snapshots. -/
inductive PRes where
  | ok (decision_list : List Dir)
  | exn
  | fuelOut
deriving DecidableEq, Repr

/-- The viability guard for an alternative edge (source lines 181 and 186):
`out_edge2` is the destination or not a dead end; it was not yet visited
this tick; its occupancy is at most the current primary edge's; and the
current primary edge is not the destination. -/
def viableAlt (ci : ConnectionInfo) (dest : Edge) (edges : List Edge)
    (out_edge out_edge2 : Edge) : Prop :=
  (out_edge2 = dest ∨ ci.outgoing_edges_dict out_edge2 ≠ []) ∧
  out_edge2 ∉ edges ∧
  ci.edge_vehicle_count out_edge2 ≤ ci.edge_vehicle_count out_edge ∧
  out_edge ≠ dest

instance viableAlt.instDec (ci : ConnectionInfo) (dest : Edge) (edges : List Edge)
    (out_edge out_edge2 : Edge) : Decidable (viableAlt ci dest edges out_edge out_edge2) := by
  unfold viableAlt; infer_instance

/-- The acceptance test once a route from the alternative has been
recomputed (source line 189): occupancies differ, or the recomputed
distance beats the current one.  Note the source compares the raw
`find_route` distances. -/
def acceptOver (ci : ConnectionInfo) (out_edge out_edge2 : Edge)
    (distance distance2 : Nat) : Prop :=
  ci.edge_vehicle_count out_edge2 ≠ ci.edge_vehicle_count out_edge ∨ distance2 < distance

instance acceptOver.instDec (ci : ConnectionInfo) (out_edge out_edge2 : Edge)
    (distance distance2 : Nat) : Decidable (acceptOver ci out_edge out_edge2 distance distance2) := by
  unfold acceptOver; infer_instance

/-- The `for choice in outgoing_edges_dict[current_edge]` loop (source
lines 177-193), threading the working `(out_edge, shortest_path, distance)`
triple.  On acceptance the working route becomes `choice ::
shortest_path2` (`insert(0, choice)` after replacing the list, line 192).
`direct` stays the first decision of the route the loop started with. -/
def choiceLoop (ci : ConnectionInfo) (v : Vehicle) (edges : List Edge) (direct : Dir) :
    List (Dir × Edge) → Edge → List Dir → Nat → Option (Edge × List Dir × Nat)
  | [], out_edge, sp, distance => some (out_edge, sp, distance)
  | (choice, out_edge2) :: rest, out_edge, sp, distance =>
    if choice = direct then choiceLoop ci v edges direct rest out_edge sp distance
    else if viableAlt ci v.destination edges out_edge out_edge2 then
      match find_route ci out_edge2 v.destination v.deadline with
      | none => none
      | some (sp2, d2) =>
        if acceptOver ci out_edge out_edge2 distance d2 then
          choiceLoop ci v edges direct rest out_edge2 (choice :: sp2) d2
        else choiceLoop ci v edges direct rest out_edge sp distance
    else choiceLoop ci v edges direct rest out_edge sp distance

/-- One vehicle's planning loop (source lines 160-198), with fuel.
State: `current` edge, accumulated `edges` history, working route `sp` and
its `distance`, and the output `decision_list` `dl`.  The Python `distance`
variable is first read only after its assignment at line 168 (the initial
route is empty), so the initial `0` here is immaterial.  The `.exn` at an
empty `sp2` is the `IndexError` `shortest_path[0]` would raise at line 195
(proved unreachable), the one after `dictGet direct` the `KeyError` of
line 174. -/
def planAux (ci : ConnectionInfo) (avg_deadline : Nat) (v : Vehicle) :
    Nat → Edge → List Edge → List Dir → Nat → List Dir → PRes
  | 0, _, _, _, _, _ => .fuelOut
  | fuel + 1, current, edges, sp, distance, dl =>
    if current = v.destination then .ok dl
    else
      let edges' := edges ++ [current]
      match (if sp = [] then find_route ci current v.destination v.deadline
             else some (sp, distance)) with
      | none => .exn
      | some (sp1, distance1) =>
        match sp1 with
        | [] => .ok dl
        | direct :: _ =>
          match dictGet direct (ci.outgoing_edges_dict current) with
          | none => .exn
          | some out_edge1 =>
            match (if avg_deadline < v.deadline then
                     choiceLoop ci v edges' direct (ci.outgoing_edges_dict current)
                       out_edge1 sp1 distance1
                   else some (out_edge1, sp1, distance1)) with
            | none => .exn
            | some (out_edge, sp2, distance2) =>
              match sp2 with
              | [] => .exn
              | final_choice :: spRest =>
                planAux ci avg_deadline v fuel out_edge edges' spRest distance2
                  (dl ++ [final_choice])

/-- Result of `make_decisions` over a whole batch. -/
inductive MDRes where
  | ok (local_targets : List (String × Edge))
  | exn
  | fuelOut
deriving DecidableEq, Repr

/-- Fuel for one vehicle's planning loop; proved sufficient for well-formed
snapshots below (the loop measure is quadratic in the number of edges). -/
def planFuel (ci : ConnectionInfo) : Nat :=
  2 * ci.edge_list.length * ci.edge_list.length + 10 * ci.edge_list.length + 12

/-- The outer `for vehicle in vehicles` loop of `make_decisions` (source
lines 159-200): plan a decision list, resolve it with
`compute_local_target`, and record `local_targets[vehicle_id]`. -/
def mdAux (ci : ConnectionInfo) (avg_deadline : Nat) :
    List Vehicle → List (String × Edge) → MDRes
  | [], acc => .ok acc
  | v :: rest, acc =>
    match planAux ci avg_deadline v (planFuel ci) v.current_edge [] [] 0 [] with
    | .fuelOut => .fuelOut
    | .exn => .exn
    | .ok dl =>
      mdAux ci avg_deadline rest (dictSet v.vehicle_id (compute_local_target ci dl v) acc)

/-- `make_decisions(vehicles, connection_info, avg_deadline)` (source lines
139-202).  As in the source, the `connection_info` parameter of the Python
method is ignored in favour of `self.connection_info`, which is the `ci`
argument here. -/
def make_decisions (ci : ConnectionInfo) (vehicles : List Vehicle) (avg_deadline : Nat) : MDRes :=
  mdAux ci avg_deadline vehicles []

/-! ### Specification-side acceptance predicates (for the branching claim)

`specAccepts` is modelled from the spec's words, for comparison with the
source's `viableAlt ∧ acceptOver`: "accept the alternative over the primary
choice if its occupancy is strictly lower, or if occupancy ties but its
total distance (alternative direction's edge length + recomputed distance)
is strictly less than the primary's". -/

def specAccepts (ci : ConnectionInfo) (dest : Edge) (edges : List Edge)
    (out_edge : Edge) (distance : Nat) (out_edge2 : Edge) (distance2 : Nat) : Prop :=
  viableAlt ci dest edges out_edge out_edge2 ∧
  (ci.edge_vehicle_count out_edge2 < ci.edge_vehicle_count out_edge ∨
   (ci.edge_vehicle_count out_edge2 = ci.edge_vehicle_count out_edge ∧
    ci.edge_length_dict out_edge2 + distance2 < distance))

instance specAccepts.instDec (ci : ConnectionInfo) (dest : Edge) (edges : List Edge)
    (out_edge : Edge) (distance : Nat) (out_edge2 : Edge) (distance2 : Nat) :
    Decidable (specAccepts ci dest edges out_edge distance out_edge2 distance2) := by
  unfold specAccepts; infer_instance

/-- The acceptance condition the source actually implements, in the
spec's `<` / `=` phrasing: occupancy strictly lower, or occupancy tie and
the recomputed `find_route` distance (which already includes the
alternative edge's length) strictly below the current one. -/
def specAcceptsAmended (ci : ConnectionInfo) (dest : Edge) (edges : List Edge)
    (out_edge : Edge) (distance : Nat) (out_edge2 : Edge) (distance2 : Nat) : Prop :=
  viableAlt ci dest edges out_edge out_edge2 ∧
  (ci.edge_vehicle_count out_edge2 < ci.edge_vehicle_count out_edge ∨
   (ci.edge_vehicle_count out_edge2 = ci.edge_vehicle_count out_edge ∧
    distance2 < distance))

/-! ### Concrete fixtures used by counterexamples and witnesses -/

/-- A snapshot with no edges at all. -/
def emptyCI : ConnectionInfo := ⟨[], fun _ => [], fun _ => 0, fun _ => 0⟩

/-- A vehicle on edge `A`, destination `B`, standing still. -/
def vehAB : Vehicle := ⟨"veh0", "A", "B", 0, 0⟩

/-- One long edge: `A -s-> B` with `length B = 25`. -/
def longCI : ConnectionInfo :=
  ⟨["A", "B"], fun e => if e = "A" then [("s", "B")] else [], fun _ => 25, fun _ => 0⟩

/-- A vehicle on `A` heading for an unreachable `Z`, standing still. -/
def vehAZ : Vehicle := ⟨"veh1", "A", "Z", 0, 0⟩

/-- Two edges joined by turn-arounds: `A -t-> B -t-> A`, lengths 1. -/
def tbackCI : ConnectionInfo :=
  ⟨["A", "B"],
   fun e => if e = "A" then [("t", "B")] else if e = "B" then [("t", "A")] else [],
   fun _ => 1, fun _ => 0⟩

/-- Two isolated edges `A`, `B`; `B` is unreachable from `A`. -/
def isoCI : ConnectionInfo := ⟨["A", "B"], fun _ => [], fun _ => 1, fun _ => 0⟩

/-- The 4-edge diamond of the end-to-end scenario: `A -s-> B`, `A -l-> C`,
`B -s-> D`, `C -s-> D`, all lengths 10, occupancy 5 on `C` and 0
elsewhere. -/
def diamondCI : ConnectionInfo where
  edge_list := ["A", "B", "C", "D"]
  outgoing_edges_dict := fun e =>
    if e = "A" then [("s", "B"), ("l", "C")]
    else if e = "B" then [("s", "D")]
    else if e = "C" then [("s", "D")]
    else []
  edge_length_dict := fun _ => 10
  edge_vehicle_count := fun e => if e = "C" then 5 else 0

/-- The diamond entity: on `A`, destination `D`, speed 5, deadline 10
(strictly above the `avg_deadline` of 5 used in the scenario). -/
def vehDiamond : Vehicle := ⟨"veh", "A", "D", 5, 10⟩

/-- A distance-tie snapshot separating the source's acceptance test from
the spec's: `A -s-> B -s-> Z` and `A -l-> C -s-> Z`, lengths
`A=1, B=8, C=8, Z=10`, all occupancies 0.  The primary route from `A` goes
through `B` at distance 19; the alternative through `C` has recomputed
distance 18 (so the source accepts it) but `length C + 18 = 26 ≥ 19` (so
the spec's stated condition rejects it). -/
def tieCI : ConnectionInfo where
  edge_list := ["A", "B", "C", "Z"]
  outgoing_edges_dict := fun e =>
    if e = "A" then [("s", "B"), ("l", "C")]
    else if e = "B" then [("s", "Z")]
    else if e = "C" then [("s", "Z")]
    else []
  edge_length_dict := fun e => if e = "A" then 1 else if e = "Z" then 10 else 8
  edge_vehicle_count := fun _ => 0

/-- The tie-scenario vehicle: on `A`, destination `Z`, deadline 10 above
the batch average of 5 (so branch exploration runs). -/
def vehTie : Vehicle := ⟨"vehT", "A", "Z", 0, 10⟩

/-- A vehicle for the turn-around scenario: on `A`, destination `Z`
(not on the loop), standing still. -/
def vehTback : Vehicle := ⟨"veh2", "A", "Z", 0, 0⟩

/-- A snapshot for a mid-list turn-around pair: `A -s-> B`, then the
two-edge loop `B -t-> C -t-> B`, all lengths 1.  A decision list
`[s, t, t, ...]` reaches the consecutive TURN_AROUNDs only after
consuming the leading STRAIGHT. -/
def turnMidCI : ConnectionInfo :=
  ⟨["A", "B", "C"],
   fun e =>
     if e = "A" then [("s", "B")]
     else if e = "B" then [("t", "C")]
     else if e = "C" then [("t", "B")]
     else [],
   fun _ => 1, fun _ => 0⟩

/-- The mid-list turn-around vehicle: on `A`, destination `Z` away from
the loop, standing still. -/
def vehTurnMid : Vehicle := ⟨"vehM", "A", "Z", 0, 0⟩

/-- `pget P e` is `path_lists[e]` read with an empty default (the source
raises `KeyError` for edges outside the dictionary; all uses below are
guarded so the default branch is unreachable). -/
def pget (P : List (Edge × List Dir)) (e : Edge) : List Dir := (dictGet e P).getD []

/-- The invariant of the `while True` loop of `find_route` (source lines
106-128), over the unvisited dictionary `U`, the recorded decision paths
`P`, and the settled (`visited`) dictionary `V`, for a search started at
`s`.  Tentative labels are either the untouched sentinel `INF` with an
empty path, or the exact cost of the recorded decision path from `s`
(which includes `s`'s own length, the initialisation of line 103); settled
labels additionally lower-bound the cost of every decision path from `s`;
and every settled edge's outgoing pairs have been relaxed. -/
structure FRInv (ci : ConnectionInfo) (s : Edge) (U : List (Edge × Nat))
    (P : List (Edge × List Dir)) (V : List (Edge × Nat)) : Prop where
  nodupU : (keys U).Nodup
  nodupP : (keys P).Nodup
  nodupV : (keys V).Nodup
  disj : ∀ e, e ∈ keys U → dictGet e V = none
  dom : ∀ e, (e ∈ keys U ∨ e ∈ keys V) ↔ (e ∈ ci.edge_list ∨ e = s)
  labelU : ∀ e d, dictGet e U = some d →
    (d = INF ∧ pget P e = [] ∧ e ≠ s) ∨
    (followCost ci s (pget P e) = some (e, d) ∧ (e ≠ s → d < INF))
  labelV : ∀ e d, dictGet e V = some d →
    (d = INF ∧ pget P e = [] ∧ e ≠ s) ∨
    (followCost ci s (pget P e) = some (e, d) ∧ (e ≠ s → d < INF))
  startP : pget P s = []
  startU : ∀ d, dictGet s U = some d → d = ci.edge_length_dict s
  lbV : ∀ e d, dictGet e V = some d → ∀ dl c, followCost ci s dl = some (e, c) → d ≤ c
  frontier : ∀ e dV, dictGet e V = some dV →
    ∀ dir oe, (dir, oe) ∈ ci.outgoing_edges_dict e →
      ∀ dU, dictGet oe U = some dU → dU ≤ dV + ci.edge_length_dict oe
  pathBound : ∀ e, (pget P e).length ≤ V.length

/-- Well-formedness of a snapshot, as guaranteed by the host interface:
outgoing targets are listed edges, each edge's outgoing dictionary has
unique direction keys (it is a Python dict), and listed edges have
positive lengths. -/
def WellFormed (ci : ConnectionInfo) : Prop :=
  (∀ e ∈ ci.edge_list, ∀ p ∈ ci.outgoing_edges_dict e, p.2 ∈ ci.edge_list) ∧
  (∀ e, (keys (ci.outgoing_edges_dict e)).Nodup) ∧
  (∀ e ∈ ci.edge_list, 0 < ci.edge_length_dict e)

/-- Invariant of the working `(out_edge, shortest_path)` pair inside one
step of `make_decisions`' planning loop: the path starts with a direction
leading from `current` to `out_edge`, its tail (when nonempty) walks from
`out_edge` to the vehicle's destination, its tail fits the `find_route`
length bound, and `out_edge` is a listed edge. -/
def PlanTriple (ci : ConnectionInfo) (v : Vehicle) (current out_edge : Edge)
    (sp : List Dir) : Prop :=
  (∃ ch rest, sp = ch :: rest ∧
    dictGet ch (ci.outgoing_edges_dict current) = some out_edge ∧
    (rest ≠ [] → ∃ c, followCost ci out_edge rest = some (v.destination, c)) ∧
    rest.length ≤ ci.edge_list.length + 1) ∧
  out_edge ∈ ci.edge_list

/-! ## Theorems -/

/-! ### Dictionary toolkit -/

lemma keys_cons {α : Type} (k : String) (v : α) (d : List (String × α)) :
    keys ((k, v) :: d) = k :: keys d := rfl

lemma dictGet_cons {α : Type} (j k : String) (v : α) (d : List (String × α)) :
    dictGet j ((k, v) :: d) = if k = j then some v else dictGet j d := by
  rw [dictGet]

lemma dictSet_cons_self {α : Type} (k : String) (v v' : α) (d : List (String × α)) :
    dictSet k v ((k, v') :: d) = (k, v) :: d := by
  rw [dictSet, if_pos rfl]

lemma dictSet_cons_ne {α : Type} (j k : String) (v v' : α) (d : List (String × α))
    (h : j ≠ k) : dictSet k v ((j, v') :: d) = (j, v') :: dictSet k v d := by
  rw [dictSet, if_neg h]

lemma dictDel_cons_self {α : Type} (k : String) (v : α) (d : List (String × α)) :
    dictDel k ((k, v) :: d) = d := by
  rw [dictDel, if_pos rfl]

lemma dictDel_cons_ne {α : Type} (j k : String) (v : α) (d : List (String × α))
    (h : j ≠ k) : dictDel k ((j, v) :: d) = (j, v) :: dictDel k d := by
  rw [dictDel, if_neg h]

lemma dictGet_dictSet_self {α : Type} (k : String) (v : α) (d : List (String × α)) :
    dictGet k (dictSet k v d) = some v := by
  induction d with
  | nil => rw [dictSet, dictGet_cons, if_pos rfl]
  | cons p rest ih =>
    obtain ⟨k', v'⟩ := p
    by_cases h : k' = k
    · subst h
      rw [dictSet_cons_self, dictGet_cons, if_pos rfl]
    · rw [dictSet_cons_ne k' k v v' rest h, dictGet_cons, if_neg h, ih]

lemma dictGet_dictSet_ne {α : Type} (j k : String) (v : α) (d : List (String × α))
    (h : j ≠ k) : dictGet j (dictSet k v d) = dictGet j d := by
  induction d with
  | nil => rw [dictSet, dictGet_cons, if_neg (Ne.symm h), dictGet]
  | cons p rest ih =>
    obtain ⟨k', v'⟩ := p
    by_cases h1 : k' = k
    · subst h1
      rw [dictSet_cons_self, dictGet_cons, dictGet_cons, if_neg (Ne.symm h),
        if_neg (Ne.symm h)]
    · rw [dictSet_cons_ne k' k v v' rest h1, dictGet_cons, dictGet_cons]
      by_cases h2 : k' = j
      · rw [if_pos h2, if_pos h2]
      · rw [if_neg h2, if_neg h2, ih]

lemma mem_keys_dictSet {α : Type} (j k : String) (v : α) (d : List (String × α)) :
    j ∈ keys (dictSet k v d) ↔ j ∈ keys d ∨ j = k := by
  induction d with
  | nil =>
    rw [dictSet, keys_cons]
    simp [keys, eq_comm]
  | cons p rest ih =>
    obtain ⟨k', v'⟩ := p
    by_cases h1 : k' = k
    · subst h1
      rw [dictSet_cons_self, keys_cons, keys_cons]
      constructor
      · exact fun hh => Or.inl hh
      · rintro (hh | hh)
        · exact hh
        · exact List.mem_cons.mpr (Or.inl hh)
    · rw [dictSet_cons_ne k' k v v' rest h1, keys_cons, keys_cons]
      simp only [List.mem_cons]
      rw [ih]
      tauto

lemma keys_dictSet_of_mem {α : Type} (k : String) (v : α) (d : List (String × α))
    (h : k ∈ keys d) : keys (dictSet k v d) = keys d := by
  induction d with
  | nil => simp [keys] at h
  | cons p rest ih =>
    obtain ⟨k', v'⟩ := p
    by_cases h1 : k' = k
    · subst h1
      rw [dictSet_cons_self, keys_cons, keys_cons]
    · have hk : k ∈ keys rest := by
        rw [keys_cons] at h
        rcases List.mem_cons.mp h with h2 | h2
        · exact absurd h2.symm h1
        · exact h2
      rw [dictSet_cons_ne k' k v v' rest h1, keys_cons, keys_cons, ih hk]

lemma length_dictSet_of_mem {α : Type} (k : String) (v : α) (d : List (String × α))
    (h : k ∈ keys d) : (dictSet k v d).length = d.length := by
  have h1 : (keys (dictSet k v d)).length = (keys d).length := by
    rw [keys_dictSet_of_mem k v d h]
  simpa [keys] using h1

lemma nodupKeys_dictSet {α : Type} (k : String) (v : α) (d : List (String × α))
    (h : (keys d).Nodup) : (keys (dictSet k v d)).Nodup := by
  induction d with
  | nil =>
    rw [dictSet, keys_cons]
    simp [keys]
  | cons p rest ih =>
    obtain ⟨k', v'⟩ := p
    rw [keys_cons] at h
    obtain ⟨ha, hb⟩ := List.nodup_cons.mp h
    by_cases h1 : k' = k
    · subst h1
      rw [dictSet_cons_self, keys_cons]
      exact List.nodup_cons.mpr ⟨ha, hb⟩
    · rw [dictSet_cons_ne k' k v v' rest h1, keys_cons]
      refine List.nodup_cons.mpr ⟨?_, ih hb⟩
      intro hmem
      rcases (mem_keys_dictSet k' k v rest).mp hmem with h2 | h2
      · exact ha h2
      · exact h1 h2

lemma dictGet_eq_none_iff {α : Type} (k : String) (d : List (String × α)) :
    dictGet k d = none ↔ k ∉ keys d := by
  induction d with
  | nil => simp [dictGet, keys]
  | cons p rest ih =>
    obtain ⟨k', v'⟩ := p
    by_cases h1 : k' = k
    · subst h1
      rw [dictGet_cons, if_pos rfl, keys_cons]
      simp
    · rw [dictGet_cons, if_neg h1, keys_cons, ih]
      simp only [List.mem_cons, not_or]
      constructor
      · exact fun hh => ⟨fun he => h1 he.symm, hh⟩
      · exact fun hh => hh.2

lemma dictGet_mem {α : Type} {k : String} {v : α} {d : List (String × α)}
    (h : dictGet k d = some v) : (k, v) ∈ d := by
  induction d with
  | nil => rw [dictGet] at h; exact absurd h (by simp)
  | cons p rest ih =>
    obtain ⟨k', v'⟩ := p
    by_cases h1 : k' = k
    · subst h1
      rw [dictGet_cons, if_pos rfl] at h
      injection h with h
      subst h
      exact List.mem_cons_self _ _
    · rw [dictGet_cons, if_neg h1] at h
      exact List.mem_cons_of_mem _ (ih h)

lemma dictGet_isSome_iff {α : Type} (k : String) (d : List (String × α)) :
    (dictGet k d).isSome ↔ k ∈ keys d := by
  cases hd : dictGet k d with
  | none =>
    simp only [Option.isSome_none, Bool.false_eq_true, false_iff]
    exact (dictGet_eq_none_iff k d).mp hd
  | some v =>
    simp only [Option.isSome_some, true_iff]
    have := List.mem_map_of_mem Prod.fst (dictGet_mem hd)
    simpa [keys] using this

lemma mem_dictGet {α : Type} {k : String} {v : α} {d : List (String × α)}
    (hnd : (keys d).Nodup) (h : (k, v) ∈ d) : dictGet k d = some v := by
  induction d with
  | nil => simp at h
  | cons p rest ih =>
    obtain ⟨k', v'⟩ := p
    rw [keys_cons] at hnd
    obtain ⟨ha, hb⟩ := List.nodup_cons.mp hnd
    rcases List.mem_cons.mp h with h2 | h2
    · obtain ⟨rfl, rfl⟩ : k = k' ∧ v = v' := Prod.mk.injEq .. ▸ h2
      rw [dictGet_cons, if_pos rfl]
    · have hk : k' ≠ k := by
        rintro rfl
        have : k' ∈ keys rest := by
          simpa [keys] using List.mem_map_of_mem Prod.fst h2
        exact ha this
      rw [dictGet_cons, if_neg hk]
      exact ih hb h2

lemma dictGet_dictDel_self {α : Type} (k : String) (d : List (String × α))
    (hnd : (keys d).Nodup) : dictGet k (dictDel k d) = none := by
  induction d with
  | nil => rw [dictDel, dictGet]
  | cons p rest ih =>
    obtain ⟨k', v'⟩ := p
    rw [keys_cons] at hnd
    obtain ⟨ha, hb⟩ := List.nodup_cons.mp hnd
    by_cases h1 : k' = k
    · subst h1
      rw [dictDel_cons_self, dictGet_eq_none_iff]
      exact ha
    · rw [dictDel_cons_ne k' k v' rest h1, dictGet_cons, if_neg h1]
      exact ih hb

lemma dictGet_dictDel_ne {α : Type} (j k : String) (d : List (String × α))
    (h : j ≠ k) : dictGet j (dictDel k d) = dictGet j d := by
  induction d with
  | nil => rw [dictDel]
  | cons p rest ih =>
    obtain ⟨k', v'⟩ := p
    by_cases h1 : k' = k
    · subst h1
      rw [dictDel_cons_self, dictGet_cons, if_neg (Ne.symm h)]
    · rw [dictDel_cons_ne k' k v' rest h1, dictGet_cons, dictGet_cons]
      by_cases h2 : k' = j
      · rw [if_pos h2, if_pos h2]
      · rw [if_neg h2, if_neg h2, ih]

lemma keys_dictDel_subset {α : Type} (k : String) (d : List (String × α)) :
    keys (dictDel k d) ⊆ keys d := by
  induction d with
  | nil =>
    rw [dictDel]
    exact fun a ha => ha
  | cons p rest ih =>
    obtain ⟨k', v'⟩ := p
    by_cases h1 : k' = k
    · subst h1
      rw [dictDel_cons_self, keys_cons]
      exact fun a ha => List.mem_cons_of_mem _ ha
    · rw [dictDel_cons_ne k' k v' rest h1, keys_cons, keys_cons]
      intro a ha
      rcases List.mem_cons.mp ha with rfl | ha
      · exact List.mem_cons_self _ _
      · exact List.mem_cons_of_mem _ (ih ha)

lemma nodupKeys_dictDel {α : Type} (k : String) (d : List (String × α))
    (hnd : (keys d).Nodup) : (keys (dictDel k d)).Nodup := by
  induction d with
  | nil => rw [dictDel]; exact hnd
  | cons p rest ih =>
    obtain ⟨k', v'⟩ := p
    rw [keys_cons] at hnd
    obtain ⟨ha, hb⟩ := List.nodup_cons.mp hnd
    by_cases h1 : k' = k
    · subst h1
      rw [dictDel_cons_self]
      exact hb
    · rw [dictDel_cons_ne k' k v' rest h1, keys_cons]
      exact List.nodup_cons.mpr ⟨fun hm => ha (keys_dictDel_subset k rest hm), ih hb⟩

lemma length_dictDel_of_mem {α : Type} (k : String) (d : List (String × α))
    (h : k ∈ keys d) : (dictDel k d).length + 1 = d.length := by
  induction d with
  | nil => simp [keys] at h
  | cons p rest ih =>
    obtain ⟨k', v'⟩ := p
    by_cases h1 : k' = k
    · subst h1
      rw [dictDel_cons_self]
      simp
    · have hk : k ∈ keys rest := by
        rw [keys_cons] at h
        rcases List.mem_cons.mp h with h2 | h2
        · exact absurd h2.symm h1
        · exact h2
      rw [dictDel_cons_ne k' k v' rest h1]
      have := ih hk
      simp only [List.length_cons]
      omega

lemma dictGet_buildDict {α : Type} (v : α) (ks : List String) :
    ∀ (d : List (String × α)) (j : String),
      dictGet j (buildDict v ks d) = if j ∈ ks then some v else dictGet j d := by
  induction ks with
  | nil => simp [buildDict]
  | cons k rest ih =>
    intro d j
    rw [buildDict, ih]
    by_cases h1 : j ∈ rest
    · simp [h1]
    · by_cases h2 : j = k
      · subst h2
        simp [h1, dictGet_dictSet_self]
      · simp [h1, h2, dictGet_dictSet_ne j k v d h2]

lemma nodupKeys_buildDict {α : Type} (v : α) (ks : List String) :
    ∀ (d : List (String × α)), (keys d).Nodup → (keys (buildDict v ks d)).Nodup := by
  induction ks with
  | nil => simpa [buildDict] using fun d h => h
  | cons k rest ih =>
    intro d hd
    rw [buildDict]
    exact ih _ (nodupKeys_dictSet k v d hd)

lemma length_dictSet_le {α : Type} (k : String) (v : α) (d : List (String × α)) :
    (dictSet k v d).length ≤ d.length + 1 := by
  induction d with
  | nil => rw [dictSet]; simp
  | cons p rest ih =>
    obtain ⟨k', v'⟩ := p
    by_cases h1 : k' = k
    · subst h1
      rw [dictSet_cons_self]
      simp
    · rw [dictSet_cons_ne k' k v v' rest h1]
      simp only [List.length_cons]
      omega

lemma length_buildDict_le {α : Type} (v : α) (ks : List String) :
    ∀ (d : List (String × α)), (buildDict v ks d).length ≤ d.length + ks.length := by
  induction ks with
  | nil => simp [buildDict]
  | cons k rest ih =>
    intro d
    rw [buildDict]
    calc (buildDict v rest (dictSet k v d)).length
        ≤ (dictSet k v d).length + rest.length := ih _
      _ ≤ d.length + 1 + rest.length := by
          have := length_dictSet_le k v d
          omega
      _ = d.length + (rest.length + 1) := by omega
      _ = d.length + (k :: rest).length := by simp


/-! ### `selectMin` (stable sort by value, first element) -/

lemma selectMin_spec :
    ∀ (l : List (Edge × Nat)) (p : Edge × Nat), selectMin l = some p →
      p ∈ l ∧ ∀ q ∈ l, p.2 ≤ q.2 := by
  have fold : ∀ (rest : List (Edge × Nat)) (p : Edge × Nat),
      (rest.foldl (fun best q => if q.2 < best.2 then q else best) p) ∈ p :: rest ∧
      ∀ q ∈ p :: rest,
        (rest.foldl (fun best q => if q.2 < best.2 then q else best) p).2 ≤ q.2 := by
    intro rest
    induction rest with
    | nil => simp
    | cons a rest' ih =>
      intro p
      by_cases h : a.2 < p.2
      · have := ih a
        constructor
        · simp only [List.foldl_cons, if_pos h]
          rcases List.mem_cons.mp this.1 with h1 | h1
          · simp [h1]
          · simp [List.mem_cons.mpr (Or.inr (List.mem_cons.mpr (Or.inr h1)))]
        · intro q hq
          simp only [List.foldl_cons, if_pos h]
          rcases List.mem_cons.mp hq with rfl | hq
          · exact le_of_lt (lt_of_le_of_lt (this.2 a (by simp)) h)
          · rcases List.mem_cons.mp hq with rfl | hq
            · exact this.2 q (by simp)
            · exact this.2 q (by simp [hq])
      · have := ih p
        constructor
        · simp only [List.foldl_cons, if_neg h]
          rcases List.mem_cons.mp this.1 with h1 | h1
          · simp [h1]
          · simp [List.mem_cons.mpr (Or.inr (List.mem_cons.mpr (Or.inr h1)))]
        · intro q hq
          simp only [List.foldl_cons, if_neg h]
          rcases List.mem_cons.mp hq with rfl | hq
          · exact this.2 q (by simp)
          · rcases List.mem_cons.mp hq with rfl | hq
            · exact le_trans (this.2 p (by simp)) (Nat.le_of_not_lt h)
            · exact this.2 q (by simp [hq])
  intro l p h
  match l, h with
  | q :: rest, h =>
    have hfold := fold rest q
    rw [selectMin] at h
    injection h with h
    subst h
    exact hfold

lemma selectMin_isSome (l : List (Edge × Nat)) (h : l ≠ []) : (selectMin l).isSome := by
  match l with
  | q :: rest => simp [selectMin]

/-! ### Walk lemmas -/

lemma followCost_ge (ci : ConnectionInfo) :
    ∀ (dl : List Dir) (st t : Edge) (c : Nat), followCost ci st dl = some (t, c) →
      ci.edge_length_dict st ≤ c := by
  intro dl
  induction dl with
  | nil =>
    intro st t c h
    rw [followCost] at h
    obtain ⟨h1, h2⟩ := Prod.mk.injEq .. ▸ Option.some.injEq .. ▸ h
    omega
  | cons d ds ih =>
    intro st t c h
    rw [followCost] at h
    split at h
    · exact absurd h (by simp)
    · split at h
      · exact absurd h (by simp)
      · rename_i t' c' heq2
        injection h with h
        obtain ⟨h1, h2⟩ := Prod.mk.injEq .. ▸ h
        omega

lemma followCost_snoc (ci : ConnectionInfo) :
    ∀ (dl : List Dir) (st : Edge) (dir : Dir) (t : Edge) (c : Nat),
      followCost ci st (dl ++ [dir]) = some (t, c) ↔
      ∃ mid c₀, followCost ci st dl = some (mid, c₀) ∧
        dictGet dir (ci.outgoing_edges_dict mid) = some t ∧
        c = c₀ + ci.edge_length_dict t := by
  intro dl
  induction dl with
  | nil =>
    intro st dir t c
    rw [List.nil_append]
    cases hd : dictGet dir (ci.outgoing_edges_dict st) with
    | none =>
      simp only [followCost, hd]
      constructor
      · intro h
        exact absurd h (by simp)
      · rintro ⟨mid, c₀, h1, h2, h3⟩
        injection h1 with h1
        obtain ⟨hm, hc⟩ := Prod.mk.injEq .. ▸ h1
        subst hm
        rw [hd] at h2
        exact absurd h2 (by simp)
    | some e' =>
      simp only [followCost, hd]
      constructor
      · intro h
        injection h with h
        obtain ⟨h1, h2⟩ := Prod.mk.injEq .. ▸ h
        subst h1
        exact ⟨st, ci.edge_length_dict st, rfl, by rw [hd], by omega⟩
      · rintro ⟨mid, c₀, h1, h2, h3⟩
        injection h1 with h1
        obtain ⟨hm, hc⟩ := Prod.mk.injEq .. ▸ h1
        subst hm
        rw [hd] at h2
        injection h2 with h2
        subst h2
        subst hc
        subst h3
        rfl
  | cons d ds ih =>
    intro st dir t c
    rw [List.cons_append]
    cases hd : dictGet d (ci.outgoing_edges_dict st) with
    | none =>
      constructor
      · intro h
        rw [followCost, hd] at h
        simp at h
      · rintro ⟨mid, c₀, h1, h2, h3⟩
        rw [followCost, hd] at h1
        simp at h1
    | some e' =>
      have key : followCost ci st (d :: (ds ++ [dir])) =
          match followCost ci e' (ds ++ [dir]) with
          | none => none
          | some (tt, cc) => some (tt, ci.edge_length_dict st + cc) := by
        rw [followCost, hd]
      have key2 : followCost ci st (d :: ds) =
          match followCost ci e' ds with
          | none => none
          | some (tt, cc) => some (tt, ci.edge_length_dict st + cc) := by
        rw [followCost, hd]
      constructor
      · intro h
        rw [key] at h
        split at h
        · simp at h
        · rename_i t' c' hf
          injection h with h
          obtain ⟨h1, h2⟩ := Prod.mk.injEq .. ▸ h
          subst h1
          obtain ⟨mid, c₀, g1, g2, g3⟩ := (ih e' dir t' c').mp hf
          refine ⟨mid, ci.edge_length_dict st + c₀, ?_, g2, by omega⟩
          rw [key2, g1]
      · rintro ⟨mid, c₀, h1, h2, h3⟩
        rw [key2] at h1
        split at h1
        · simp at h1
        · rename_i t' c' hf
          injection h1 with h1
          obtain ⟨g1, g2⟩ := Prod.mk.injEq .. ▸ h1
          subst g1
          have hstep : followCost ci e' (ds ++ [dir]) = some (t, c' + ci.edge_length_dict t) :=
            (ih e' dir t (c' + ci.edge_length_dict t)).mpr ⟨t', c', hf, h2, rfl⟩
          rw [key, hstep]
          have hc : c = ci.edge_length_dict st + (c' + ci.edge_length_dict t) := by omega
          rw [hc]

/-- Closure: a walk that starts in the edge list (or at the distinguished
start edge) stays in the edge list. -/
lemma followCost_closure (ci : ConnectionInfo) (s : Edge)
    (hclos : ∀ e, (e ∈ ci.edge_list ∨ e = s) →
      ∀ p ∈ ci.outgoing_edges_dict e, p.2 ∈ ci.edge_list) :
    ∀ (dl : List Dir) (st t : Edge) (c : Nat), (st ∈ ci.edge_list ∨ st = s) →
      followCost ci st dl = some (t, c) → t ∈ ci.edge_list ∨ t = s := by
  intro dl
  induction dl with
  | nil =>
    intro st t c hst h
    rw [followCost] at h
    injection h with h
    obtain ⟨h1, h2⟩ := Prod.mk.injEq .. ▸ h
    exact h1 ▸ hst
  | cons d ds ih =>
    intro st t c hst h
    rw [followCost] at h
    split at h
    · simp at h
    · rename_i e' hd
      split at h
      · simp at h
      · rename_i t' c' hf
        injection h with h
        obtain ⟨h1, h2⟩ := Prod.mk.injEq .. ▸ h
        subst h1
        have he' : e' ∈ ci.edge_list := hclos st hst _ (dictGet_mem hd)
        exact ih e' t' c' (Or.inl he') hf

/-! ### The relaxation pass -/

/-- The settled edge's own label and recorded path are untouched by its own
relaxation pass: a self-relaxation offers `cur_dist + length ≥ cur_dist`
and so never fires. -/
lemma relaxLoop_cur (ci : ConnectionInfo) (cur : Edge) (cur_dist : Nat) :
    ∀ (lst : List (Dir × Edge)) (U : List (Edge × Nat)) (P : List (Edge × List Dir)),
      dictGet cur U = some cur_dist →
      dictGet cur (relaxLoop ci cur cur_dist lst U P).1 = some cur_dist ∧
      dictGet cur (relaxLoop ci cur cur_dist lst U P).2 = dictGet cur P := by
  intro lst
  induction lst with
  | nil =>
    intro U P hU
    rw [relaxLoop]
    exact ⟨hU, rfl⟩
  | cons p rest ih =>
    intro U P hU
    obtain ⟨dir, oe⟩ := p
    rw [relaxLoop]
    cases hoe : dictGet oe U with
    | none => exact ih U P hU
    | some doe =>
      simp only []
      by_cases hlt : cur_dist + ci.edge_length_dict oe < doe
      · rw [if_pos hlt]
        have hne : oe ≠ cur := by
          rintro rfl
          rw [hU] at hoe
          injection hoe with hoe
          omega
        have h1 : dictGet cur (dictSet oe (cur_dist + ci.edge_length_dict oe) U) =
            some cur_dist := by rw [dictGet_dictSet_ne cur oe _ U (Ne.symm hne), hU]
        have hrec := ih (dictSet oe (cur_dist + ci.edge_length_dict oe) U)
          (dictSet oe ((dictGet cur P).getD [] ++ [dir]) P) h1
        refine ⟨hrec.1, ?_⟩
        rw [hrec.2, dictGet_dictSet_ne cur oe _ P (Ne.symm hne)]
      · rw [if_neg hlt]
        exact ih U P hU

/-- Relaxation never raises a label. -/
lemma relaxLoop_monotone (ci : ConnectionInfo) (cur : Edge) (cur_dist : Nat) :
    ∀ (lst : List (Dir × Edge)) (U : List (Edge × Nat)) (P : List (Edge × List Dir))
      (e : Edge) (d' : Nat),
      dictGet e (relaxLoop ci cur cur_dist lst U P).1 = some d' →
      ∃ d, dictGet e U = some d ∧ d' ≤ d := by
  intro lst
  induction lst with
  | nil =>
    intro U P e d' h
    rw [relaxLoop] at h
    exact ⟨d', h, le_refl d'⟩
  | cons p rest ih =>
    intro U P e d' h
    obtain ⟨dir, oe⟩ := p
    rw [relaxLoop] at h
    cases hoe : dictGet oe U with
    | none =>
      rw [hoe] at h
      exact ih U P e d' h
    | some doe =>
      rw [hoe] at h
      simp only [] at h
      by_cases hlt : cur_dist + ci.edge_length_dict oe < doe
      · rw [if_pos hlt] at h
        obtain ⟨d, hd, hle⟩ := ih _ _ e d' h
        by_cases he : e = oe
        · subst he
          rw [dictGet_dictSet_self] at hd
          injection hd with hd
          exact ⟨doe, hoe, by omega⟩
        · rw [dictGet_dictSet_ne e oe _ U he] at hd
          exact ⟨d, hd, hle⟩
      · rw [if_neg hlt] at h
        exact ih U P e d' h

/-- Relaxation neither adds nor removes unvisited keys. -/
lemma relaxLoop_none_iff (ci : ConnectionInfo) (cur : Edge) (cur_dist : Nat) :
    ∀ (lst : List (Dir × Edge)) (U : List (Edge × Nat)) (P : List (Edge × List Dir))
      (e : Edge),
      dictGet e (relaxLoop ci cur cur_dist lst U P).1 = none ↔ dictGet e U = none := by
  intro lst
  induction lst with
  | nil =>
    intro U P e
    rw [relaxLoop]
  | cons p rest ih =>
    intro U P e
    obtain ⟨dir, oe⟩ := p
    rw [relaxLoop]
    cases hoe : dictGet oe U with
    | none => exact ih U P e
    | some doe =>
      simp only []
      by_cases hlt : cur_dist + ci.edge_length_dict oe < doe
      · rw [if_pos hlt, ih]
        by_cases he : e = oe
        · subst he
          rw [dictGet_dictSet_self, hoe]
          simp
        · rw [dictGet_dictSet_ne e oe _ U he]
      · rw [if_neg hlt]
        exact ih U P e

/-- Relaxation preserves the length of the unvisited dictionary. -/
lemma relaxLoop_length (ci : ConnectionInfo) (cur : Edge) (cur_dist : Nat) :
    ∀ (lst : List (Dir × Edge)) (U : List (Edge × Nat)) (P : List (Edge × List Dir)),
      (relaxLoop ci cur cur_dist lst U P).1.length = U.length := by
  intro lst
  induction lst with
  | nil =>
    intro U P
    rw [relaxLoop]
  | cons p rest ih =>
    intro U P
    obtain ⟨dir, oe⟩ := p
    rw [relaxLoop]
    cases hoe : dictGet oe U with
    | none => exact ih U P
    | some doe =>
      simp only []
      by_cases hlt : cur_dist + ci.edge_length_dict oe < doe
      · rw [if_pos hlt, ih]
        exact length_dictSet_of_mem oe _ U
          ((dictGet_isSome_iff oe U).mp (by rw [hoe]; rfl))
      · rw [if_neg hlt]
        exact ih U P

/-- Relaxation preserves key-nodupness of both dictionaries. -/
lemma relaxLoop_nodup (ci : ConnectionInfo) (cur : Edge) (cur_dist : Nat) :
    ∀ (lst : List (Dir × Edge)) (U : List (Edge × Nat)) (P : List (Edge × List Dir)),
      (keys U).Nodup → (keys P).Nodup →
      (keys (relaxLoop ci cur cur_dist lst U P).1).Nodup ∧
      (keys (relaxLoop ci cur cur_dist lst U P).2).Nodup := by
  intro lst
  induction lst with
  | nil =>
    intro U P hU hP
    rw [relaxLoop]
    exact ⟨hU, hP⟩
  | cons p rest ih =>
    intro U P hU hP
    obtain ⟨dir, oe⟩ := p
    rw [relaxLoop]
    cases hoe : dictGet oe U with
    | none => exact ih U P hU hP
    | some doe =>
      simp only []
      by_cases hlt : cur_dist + ci.edge_length_dict oe < doe
      · rw [if_pos hlt]
        exact ih _ _ (nodupKeys_dictSet oe _ U hU) (nodupKeys_dictSet oe _ P hP)
      · rw [if_neg hlt]
        exact ih U P hU hP

/-- Per-edge effect of a relaxation pass: each entry is either untouched
(in both dictionaries), or was improved by some offered pair, receiving
label `cur_dist + length` and path `path_lists[cur] + [direction]`, having
strictly beaten its previous label. -/
lemma relaxLoop_dichotomy (ci : ConnectionInfo) (cur : Edge) (cur_dist : Nat) :
    ∀ (lst : List (Dir × Edge)) (U : List (Edge × Nat)) (P : List (Edge × List Dir)),
      dictGet cur U = some cur_dist →
      ∀ e,
        (dictGet e (relaxLoop ci cur cur_dist lst U P).1 = dictGet e U ∧
         dictGet e (relaxLoop ci cur cur_dist lst U P).2 = dictGet e P) ∨
        (∃ dir, (dir, e) ∈ lst ∧
          dictGet e (relaxLoop ci cur cur_dist lst U P).1 =
            some (cur_dist + ci.edge_length_dict e) ∧
          dictGet e (relaxLoop ci cur cur_dist lst U P).2 =
            some ((dictGet cur P).getD [] ++ [dir]) ∧
          ∃ old, dictGet e U = some old ∧ cur_dist + ci.edge_length_dict e < old) := by
  intro lst
  induction lst with
  | nil =>
    intro U P hU e
    rw [relaxLoop]
    exact Or.inl ⟨rfl, rfl⟩
  | cons p rest ih =>
    intro U P hU e
    obtain ⟨dir, oe⟩ := p
    rw [relaxLoop]
    cases hoe : dictGet oe U with
    | none =>
      rcases ih U P hU e with h | ⟨dir', hmem, h1, h2, old, h3, h4⟩
      · exact Or.inl h
      · exact Or.inr ⟨dir', List.mem_cons_of_mem _ hmem, h1, h2, old, h3, h4⟩
    | some doe =>
      simp only []
      by_cases hlt : cur_dist + ci.edge_length_dict oe < doe
      · rw [if_pos hlt]
        have hne : oe ≠ cur := by
          rintro rfl
          rw [hU] at hoe
          injection hoe with hoe
          omega
        have hUcur : dictGet cur (dictSet oe (cur_dist + ci.edge_length_dict oe) U) =
            some cur_dist := by rw [dictGet_dictSet_ne cur oe _ U (Ne.symm hne), hU]
        have hPcur : dictGet cur (dictSet oe ((dictGet cur P).getD [] ++ [dir]) P) =
            dictGet cur P := by
          rw [dictGet_dictSet_ne cur oe _ P (Ne.symm hne)]
        rcases ih (dictSet oe (cur_dist + ci.edge_length_dict oe) U)
            (dictSet oe ((dictGet cur P).getD [] ++ [dir]) P) hUcur e with
          ⟨h1, h2⟩ | ⟨dir', hmem, h1, h2, old, h3, h4⟩
        · by_cases he : e = oe
          · subst he
            rw [dictGet_dictSet_self] at h1
            rw [dictGet_dictSet_self] at h2
            exact Or.inr ⟨dir, List.mem_cons_self _ _, h1, h2, doe, hoe, hlt⟩
          · rw [dictGet_dictSet_ne e oe _ U he] at h1
            rw [dictGet_dictSet_ne e oe _ P he] at h2
            exact Or.inl ⟨h1, h2⟩
        · refine Or.inr ⟨dir', List.mem_cons_of_mem _ hmem, h1, ?_, ?_⟩
          · rw [hPcur] at h2
            exact h2
          · by_cases he : e = oe
            · subst he
              exact ⟨doe, hoe, hlt⟩
            · rw [dictGet_dictSet_ne e oe _ U he] at h3
              exact ⟨old, h3, h4⟩
      · rw [if_neg hlt]
        rcases ih U P hU e with h | ⟨dir', hmem, h1, h2, old, h3, h4⟩
        · exact Or.inl h
        · exact Or.inr ⟨dir', List.mem_cons_of_mem _ hmem, h1, h2, old, h3, h4⟩

/-- Every pair offered by the pass bounds the final label of its target:
after relaxing, `U'[oe] ≤ cur_dist + length(oe)` for each listed
`(dir, oe)` still unvisited. -/
lemma relaxLoop_offered (ci : ConnectionInfo) (cur : Edge) (cur_dist : Nat) :
    ∀ (lst : List (Dir × Edge)) (U : List (Edge × Nat)) (P : List (Edge × List Dir))
      (dir : Dir) (oe : Edge), (dir, oe) ∈ lst →
      ∀ d', dictGet oe (relaxLoop ci cur cur_dist lst U P).1 = some d' →
        d' ≤ cur_dist + ci.edge_length_dict oe := by
  intro lst
  induction lst with
  | nil =>
    intro U P dir oe hmem
    simp at hmem
  | cons p rest ih =>
    intro U P dir oe hmem d' h
    obtain ⟨dir0, oe0⟩ := p
    rw [relaxLoop] at h
    rcases List.mem_cons.mp hmem with heq | hmem'
    · obtain ⟨hd, he⟩ := Prod.mk.injEq .. ▸ heq
      subst hd
      subst he
      cases hoe : dictGet oe U with
      | none =>
        rw [hoe] at h
        have : dictGet oe (relaxLoop ci cur cur_dist rest U P).1 = none :=
          (relaxLoop_none_iff ci cur cur_dist rest U P oe).mpr hoe
        rw [h] at this
        exact absurd this (by simp)
      | some doe =>
        rw [hoe] at h
        simp only [] at h
        by_cases hlt : cur_dist + ci.edge_length_dict oe < doe
        · rw [if_pos hlt] at h
          obtain ⟨d, hd, hle⟩ := relaxLoop_monotone ci cur cur_dist rest _ _ oe d' h
          rw [dictGet_dictSet_self] at hd
          injection hd with hd
          omega
        · rw [if_neg hlt] at h
          obtain ⟨d, hd, hle⟩ := relaxLoop_monotone ci cur cur_dist rest _ _ oe d' h
          rw [hoe] at hd
          injection hd with hd
          omega
    · cases hoe0 : dictGet oe0 U with
      | none =>
        rw [hoe0] at h
        exact ih U P dir oe hmem' d' h
      | some doe0 =>
        rw [hoe0] at h
        simp only [] at h
        by_cases hlt : cur_dist + ci.edge_length_dict oe0 < doe0
        · rw [if_pos hlt] at h
          exact ih _ _ dir oe hmem' d' h
        · rw [if_neg hlt] at h
          exact ih U P dir oe hmem' d' h

/-! ### The search invariant of `find_route` -/

lemma mem_keys_iff_get {α : Type} (k : String) (d : List (String × α)) :
    k ∈ keys d ↔ ∃ v, dictGet k d = some v := by
  rw [← dictGet_isSome_iff]
  cases dictGet k d <;> simp

lemma length_dictSet_of_not_mem {α : Type} (k : String) (v : α) (d : List (String × α))
    (h : k ∉ keys d) : (dictSet k v d).length = d.length + 1 := by
  induction d with
  | nil => rw [dictSet]; rfl
  | cons p rest ih =>
    obtain ⟨k', v'⟩ := p
    have hk : k' ≠ k := by
      rintro rfl
      exact h (by rw [keys_cons]; exact List.mem_cons_self _ _)
    have hrest : k ∉ keys rest := by
      intro hm
      exact h (by rw [keys_cons]; exact List.mem_cons_of_mem _ hm)
    rw [dictSet_cons_ne k' k v v' rest hk]
    simp only [List.length_cons]
    rw [ih hrest]

/-- The selection argument of Dijkstra: when `(e', d')` has the minimum
label among the unvisited edges, `d'` lower-bounds the cost of every
decision path from `s` to any unsettled edge.  (Walk the path from `s`;
at the first unsettled edge the frontier invariant bounds its label by
the prefix cost, and minimality bounds `d'` by that label.) -/
lemma FRInv.min_lower_bound {ci : ConnectionInfo} {s : Edge}
    {U : List (Edge × Nat)} {P : List (Edge × List Dir)} {V : List (Edge × Nat)}
    (inv : FRInv ci s U P V)
    (hclos : ∀ e, (e ∈ ci.edge_list ∨ e = s) →
      ∀ p ∈ ci.outgoing_edges_dict e, p.2 ∈ ci.edge_list)
    {d' : Nat} (hmin : ∀ f df, dictGet f U = some df → d' ≤ df) :
    ∀ (dl : List Dir) (t : Edge) (c : Nat), followCost ci s dl = some (t, c) →
      dictGet t V = none → d' ≤ c := by
  intro dl
  induction dl using List.reverseRecOn with
  | nil =>
    intro t c h hV
    rw [followCost] at h
    injection h with h
    obtain ⟨h1, h2⟩ := Prod.mk.injEq .. ▸ h
    subst h1
    have hsU : s ∈ keys U := by
      rcases (inv.dom s).mpr (Or.inr rfl) with h3 | h3
      · exact h3
      · obtain ⟨v, hv⟩ := (mem_keys_iff_get s V).mp h3
        rw [hV] at hv
        cases hv
    obtain ⟨ds, hds⟩ := (mem_keys_iff_get s U).mp hsU
    have hlen : ds = ci.edge_length_dict s := inv.startU ds hds
    have := hmin s ds hds
    omega
  | append_singleton dl₀ dir ih =>
    intro t c h hV
    obtain ⟨mid, c₀, h1, h2, h3⟩ := (followCost_snoc ci dl₀ s dir t c).mp h
    cases hmidV : dictGet mid V with
    | none =>
      have := ih mid c₀ h1 hmidV
      omega
    | some dmid =>
      have hmid_lb : dmid ≤ c₀ := inv.lbV mid dmid hmidV dl₀ c₀ h1
      have hmid_dom : mid ∈ ci.edge_list ∨ mid = s :=
        (inv.dom mid).mp (Or.inr ((mem_keys_iff_get mid V).mpr ⟨dmid, hmidV⟩))
      have ht_list : t ∈ ci.edge_list := hclos mid hmid_dom _ (dictGet_mem h2)
      have htU : t ∈ keys U := by
        rcases (inv.dom t).mpr (Or.inl ht_list) with h4 | h4
        · exact h4
        · obtain ⟨v, hv⟩ := (mem_keys_iff_get t V).mp h4
          rw [hV] at hv
          cases hv
      obtain ⟨dt, hdt⟩ := (mem_keys_iff_get t U).mp htU
      have hfr : dt ≤ dmid + ci.edge_length_dict t :=
        inv.frontier mid dmid hmidV dir t (dictGet_mem h2) dt hdt
      have := hmin t dt hdt
      omega

/-- One iteration of the search (relax `cur`'s outgoing pairs, mark `cur`
visited, delete it from the unvisited dictionary) preserves the invariant;
the unvisited dictionary shrinks by one entry and the visited one grows by
one. -/
lemma FRInv_step (ci : ConnectionInfo) (s : Edge)
    (hnodout : ∀ e, (keys (ci.outgoing_edges_dict e)).Nodup)
    (U : List (Edge × Nat)) (P : List (Edge × List Dir)) (V : List (Edge × Nat))
    (cur : Edge) (cur_dist : Nat)
    (inv : FRInv ci s U P V)
    (hcur : dictGet cur U = some cur_dist)
    (hcrux : ∀ dl c, followCost ci s dl = some (cur, c) → cur_dist ≤ c) :
    FRInv ci s (dictDel cur (relaxLoop ci cur cur_dist (ci.outgoing_edges_dict cur) U P).1)
      ((relaxLoop ci cur cur_dist (ci.outgoing_edges_dict cur) U P).2)
      (dictSet cur cur_dist V) ∧
    (dictDel cur (relaxLoop ci cur cur_dist (ci.outgoing_edges_dict cur) U P).1).length + 1 =
      U.length ∧
    (dictSet cur cur_dist V).length = V.length + 1 := by
  obtain ⟨ndU, ndP, ndV, disj, dom, labelU, labelV, startP, startU, lbV, frontier, pathBound⟩ :=
    inv
  have hcurU : cur ∈ keys U := (mem_keys_iff_get cur U).mpr ⟨cur_dist, hcur⟩
  have hcurV : dictGet cur V = none := disj cur hcurU
  have hcurVmem : cur ∉ keys V := by
    intro hm
    obtain ⟨v, hv⟩ := (mem_keys_iff_get cur V).mp hm
    rw [hcurV] at hv
    cases hv
  have hrc := relaxLoop_cur ci cur cur_dist (ci.outgoing_edges_dict cur) U P hcur
  have hdich := relaxLoop_dichotomy ci cur cur_dist (ci.outgoing_edges_dict cur) U P hcur
  have hnd1 := relaxLoop_nodup ci cur cur_dist (ci.outgoing_edges_dict cur) U P ndU ndP
  have hVlen : (dictSet cur cur_dist V).length = V.length + 1 :=
    length_dictSet_of_not_mem cur cur_dist V hcurVmem
  -- a fired update is a genuine extension of cur's recorded path
  have hfired : ∀ e dir, (dir, e) ∈ ci.outgoing_edges_dict cur →
      (∃ old, dictGet e U = some old ∧ cur_dist + ci.edge_length_dict e < old) →
      followCost ci s (pget P cur ++ [dir]) = some (e, cur_dist + ci.edge_length_dict e) ∧
      (e ≠ s → cur_dist + ci.edge_length_dict e < INF) := by
    rintro e dir hmem ⟨old, hold, hlt⟩
    have hbound_old : e ≠ s → old ≤ INF := by
      intro hes
      rcases labelU e old hold with ⟨hoINF, _, _⟩ | ⟨_, hobound⟩
      · omega
      · have := hobound hes
        omega
    rcases labelU cur cur_dist hcur with ⟨hINF, hpc, hcs⟩ | ⟨hgen, hbound⟩
    · exfalso
      by_cases hes : e = s
      · subst hes
        have : old = ci.edge_length_dict e := startU old hold
        omega
      · have := hbound_old hes
        omega
    · have hde : dictGet dir (ci.outgoing_edges_dict cur) = some e :=
        mem_dictGet (hnodout cur) hmem
      refine ⟨(followCost_snoc ci (pget P cur) s dir e _).mpr ⟨cur, cur_dist, hgen, hde, rfl⟩, ?_⟩
      intro hes
      have := hbound_old hes
      omega
  -- fired updates never hit s
  have hsP : pget (relaxLoop ci cur cur_dist (ci.outgoing_edges_dict cur) U P).2 s = pget P s ∧
      (∀ d, dictGet s (relaxLoop ci cur cur_dist (ci.outgoing_edges_dict cur) U P).1 = some d →
        dictGet s U = some d) := by
    rcases hdich s with ⟨h1, h2⟩ | ⟨dir, hmem, h1, h2, old, hold, hlt⟩
    · constructor
      · rw [pget, h2, pget]
      · intro d hd
        rw [← h1, hd]
    · exfalso
      have : old = ci.edge_length_dict s := startU old hold
      omega
  refine ⟨⟨?_, hnd1.2, nodupKeys_dictSet cur cur_dist V ndV, ?_, ?_, ?_, ?_, ?_, ?_, ?_, ?_, ?_⟩,
    ?_, hVlen⟩
  · exact nodupKeys_dictDel cur _ hnd1.1
  · -- disj
    intro e he
    obtain ⟨d, hd⟩ := (mem_keys_iff_get e _).mp he
    have hene : e ≠ cur := by
      rintro rfl
      rw [dictGet_dictDel_self e _ hnd1.1] at hd
      cases hd
    rw [dictGet_dictDel_ne e cur _ hene] at hd
    have heU : e ∈ keys U := by
      rw [mem_keys_iff_get]
      cases hU0 : dictGet e U with
      | none =>
        have : dictGet e (relaxLoop ci cur cur_dist (ci.outgoing_edges_dict cur) U P).1 = none :=
          (relaxLoop_none_iff ci cur cur_dist _ U P e).mpr hU0
        rw [this] at hd
        cases hd
      | some d0 => exact ⟨d0, rfl⟩
    rw [dictGet_dictSet_ne e cur cur_dist V hene]
    exact disj e heU
  · -- dom
    intro e
    by_cases hec : e = cur
    · subst hec
      constructor
      · intro _
        exact (dom e).mp (Or.inl hcurU)
      · intro _
        exact Or.inr ((mem_keys_dictSet e e cur_dist V).mpr (Or.inr rfl))
    · have hU' : e ∈ keys (dictDel cur (relaxLoop ci cur cur_dist
          (ci.outgoing_edges_dict cur) U P).1) ↔ e ∈ keys U := by
        rw [mem_keys_iff_get, mem_keys_iff_get]
        constructor
        · rintro ⟨v, hv⟩
          rw [dictGet_dictDel_ne e cur _ hec] at hv
          cases hU0 : dictGet e U with
          | none =>
            have : dictGet e (relaxLoop ci cur cur_dist
                (ci.outgoing_edges_dict cur) U P).1 = none :=
              (relaxLoop_none_iff ci cur cur_dist _ U P e).mpr hU0
            rw [this] at hv
            cases hv
          | some d0 => exact ⟨d0, rfl⟩
        · rintro ⟨v, hv⟩
          rw [dictGet_dictDel_ne e cur _ hec]
          cases hU1 : dictGet e (relaxLoop ci cur cur_dist
              (ci.outgoing_edges_dict cur) U P).1 with
          | none =>
            have := (relaxLoop_none_iff ci cur cur_dist _ U P e).mp hU1
            rw [this] at hv
            cases hv
          | some d1 => exact ⟨d1, rfl⟩
      have hV' : e ∈ keys (dictSet cur cur_dist V) ↔ e ∈ keys V := by
        rw [mem_keys_dictSet]
        constructor
        · rintro (h | h)
          · exact h
          · exact absurd h hec
        · exact Or.inl
      rw [hU', hV']
      exact dom e
  · -- labelU
    intro e d hd
    have hene : e ≠ cur := by
      rintro rfl
      rw [dictGet_dictDel_self e _ hnd1.1] at hd
      cases hd
    rw [dictGet_dictDel_ne e cur _ hene] at hd
    rcases hdich e with ⟨h1, h2⟩ | ⟨dir, hmem, h1, h2, old, hold, hlt⟩
    · rw [h1] at hd
      have hpg : pget (relaxLoop ci cur cur_dist (ci.outgoing_edges_dict cur) U P).2 e =
          pget P e := by rw [pget, h2, pget]
      rw [hpg]
      exact labelU e d hd
    · rw [h1] at hd
      injection hd with hd
      subst hd
      have hpg : pget (relaxLoop ci cur cur_dist (ci.outgoing_edges_dict cur) U P).2 e =
          pget P cur ++ [dir] := by rw [pget, h2]; rfl
      rw [hpg]
      exact Or.inr (hfired e dir hmem ⟨old, hold, hlt⟩)
  · -- labelV
    intro e d hd
    by_cases hec : e = cur
    · subst hec
      rw [dictGet_dictSet_self] at hd
      injection hd with hd
      subst hd
      have hpg : pget (relaxLoop ci e cur_dist (ci.outgoing_edges_dict e) U P).2 e =
          pget P e := by rw [pget, hrc.2, pget]
      rw [hpg]
      exact labelU e cur_dist hcur
    · rw [dictGet_dictSet_ne e cur cur_dist V hec] at hd
      have heUnone : dictGet e U = none := by
        cases hU0 : dictGet e U with
        | none => rfl
        | some d0 =>
          have : e ∈ keys U := (mem_keys_iff_get e U).mpr ⟨d0, hU0⟩
          rw [disj e this] at hd
          cases hd
      rcases hdich e with ⟨h1, h2⟩ | ⟨dir, hmem, h1, h2, old, hold, hlt⟩
      · have hpg : pget (relaxLoop ci cur cur_dist (ci.outgoing_edges_dict cur) U P).2 e =
            pget P e := by rw [pget, h2, pget]
        rw [hpg]
        exact labelV e d hd
      · rw [heUnone] at hold
        cases hold
  · -- startP
    rw [hsP.1]
    exact startP
  · -- startU
    intro d hd
    have hsc : s ≠ cur := by
      rintro rfl
      rw [dictGet_dictDel_self s _ hnd1.1] at hd
      cases hd
    rw [dictGet_dictDel_ne s cur _ hsc] at hd
    exact startU d (hsP.2 d hd)
  · -- lbV
    intro e d hd
    by_cases hec : e = cur
    · subst hec
      rw [dictGet_dictSet_self] at hd
      injection hd with hd
      subst hd
      exact hcrux
    · rw [dictGet_dictSet_ne e cur cur_dist V hec] at hd
      exact lbV e d hd
  · -- frontier
    intro e dV hdV dir oe hmem dU hdU
    have hoene : oe ≠ cur := by
      rintro rfl
      rw [dictGet_dictDel_self oe _ hnd1.1] at hdU
      cases hdU
    rw [dictGet_dictDel_ne oe cur _ hoene] at hdU
    by_cases hec : e = cur
    · subst hec
      rw [dictGet_dictSet_self] at hdV
      injection hdV with hdV
      subst hdV
      exact relaxLoop_offered ci e cur_dist (ci.outgoing_edges_dict e) U P dir oe hmem dU hdU
    · rw [dictGet_dictSet_ne e cur cur_dist V hec] at hdV
      obtain ⟨dOe, hdOe, hle⟩ :=
        relaxLoop_monotone ci cur cur_dist (ci.outgoing_edges_dict cur) U P oe dU hdU
      have := frontier e dV hdV dir oe hmem dOe hdOe
      omega
  · -- pathBound
    intro e
    rw [hVlen]
    rcases hdich e with ⟨h1, h2⟩ | ⟨dir, hmem, h1, h2, old, hold, hlt⟩
    · have hpg : pget (relaxLoop ci cur cur_dist (ci.outgoing_edges_dict cur) U P).2 e =
          pget P e := by rw [pget, h2, pget]
      rw [hpg]
      have := pathBound e
      omega
    · have hpg : pget (relaxLoop ci cur cur_dist (ci.outgoing_edges_dict cur) U P).2 e =
          pget P cur ++ [dir] := by rw [pget, h2]; rfl
      rw [hpg]
      have := pathBound cur
      simp only [List.length_append, List.length_cons, List.length_nil]
      omega
  · -- length of U shrinks by one
    have hcur1 : cur ∈ keys (relaxLoop ci cur cur_dist (ci.outgoing_edges_dict cur) U P).1 :=
      (mem_keys_iff_get cur _).mpr ⟨cur_dist, hrc.1⟩
    have := length_dictDel_of_mem cur _ hcur1
    rw [this, relaxLoop_length ci cur cur_dist (ci.outgoing_edges_dict cur) U P]

/-- The search loop: starting from any state satisfying the invariant, with
the destination still unvisited, enough fuel, and a current edge whose
label lower-bounds all path costs to it, the loop returns, the returned
distance is the destination's settled label, the recorded decision path is
either empty with the `INF` sentinel or a genuine walk from `s` to the
destination with exactly that cost, and the distance lower-bounds the cost
of every decision path from `s` to the destination.  (The loop can only
stop by settling the destination: exhaustion of the unvisited set with
`dest` still listed forces `cur = dest`.) -/
lemma findRouteAux_spec (ci : ConnectionInfo) (s dest : Edge)
    (hclos : ∀ e, (e ∈ ci.edge_list ∨ e = s) →
      ∀ p ∈ ci.outgoing_edges_dict e, p.2 ∈ ci.edge_list)
    (hnodout : ∀ e, (keys (ci.outgoing_edges_dict e)).Nodup)
    (hposS : 0 < ci.edge_length_dict s) :
    ∀ (fuel : Nat) (U : List (Edge × Nat)) (P : List (Edge × List Dir)) (V : List (Edge × Nat))
      (cur : Edge) (cur_dist : Nat),
      FRInv ci s U P V →
      dictGet cur U = some cur_dist →
      (∀ dl c, followCost ci s dl = some (cur, c) → cur_dist ≤ c) →
      dest ∈ keys U →
      U.length ≤ fuel →
      ∃ P' V' d,
        findRouteAux ci dest fuel cur cur_dist U P V = some (P', d, V') ∧
        dictGet dest V' = some d ∧
        ((d = INF ∧ pget P' dest = []) ∨ followCost ci s (pget P' dest) = some (dest, d)) ∧
        (∀ dl c, followCost ci s dl = some (dest, c) → d ≤ c) ∧
        (pget P' dest).length ≤ V'.length ∧
        V'.length ≤ V.length + U.length := by
  intro fuel
  induction fuel with
  | zero =>
    intro U P V cur cur_dist inv hcur hcrux hdest hfuel
    exfalso
    have hU : U = [] := List.length_eq_zero.mp (Nat.le_zero.mp hfuel)
    subst hU
    rw [dictGet] at hcur
    cases hcur
  | succ fuel ih =>
    intro U P V cur cur_dist inv hcur hcrux hdest hfuel
    obtain ⟨inv', hUlen, hVlen⟩ := FRInv_step ci s hnodout U P V cur cur_dist inv hcur hcrux
    have hdest_not_gone : dest ≠ cur →
        dest ∈ keys (dictDel cur (relaxLoop ci cur cur_dist
          (ci.outgoing_edges_dict cur) U P).1) := by
      intro hne
      obtain ⟨dd, hdd⟩ := (mem_keys_iff_get dest U).mp hdest
      rw [mem_keys_iff_get, dictGet_dictDel_ne dest cur _ hne]
      cases hU1 : dictGet dest (relaxLoop ci cur cur_dist
          (ci.outgoing_edges_dict cur) U P).1 with
      | none =>
        have := (relaxLoop_none_iff ci cur cur_dist _ U P dest).mp hU1
        rw [this] at hdd
        cases hdd
      | some d1 => exact ⟨d1, rfl⟩
    have hsettle : ∀ hcd : cur = dest,
        dictGet dest (dictSet cur cur_dist V) = some cur_dist := by
      rintro rfl
      exact dictGet_dictSet_self cur cur_dist V
    rw [findRouteAux]
    by_cases hU' : dictDel cur (relaxLoop ci cur cur_dist
        (ci.outgoing_edges_dict cur) U P).1 = []
    · have hcd : cur = dest := by
        by_contra hne
        have := hdest_not_gone (fun h => hne h.symm)
        rw [hU'] at this
        simp [keys] at this
      rw [if_pos hU']
      refine ⟨(relaxLoop ci cur cur_dist (ci.outgoing_edges_dict cur) U P).2,
        dictSet cur cur_dist V, cur_dist, rfl, hsettle hcd, ?_, ?_, ?_, ?_⟩
      · rcases inv'.labelV dest cur_dist (hsettle hcd) with ⟨h1, h2, _⟩ | ⟨h1, _⟩
        · exact Or.inl ⟨h1, h2⟩
        · exact Or.inr h1
      · exact inv'.lbV dest cur_dist (hsettle hcd)
      · exact inv'.pathBound dest
      · have : 1 ≤ U.length := by omega
        omega
    · rw [if_neg hU']
      by_cases hcd : cur = dest
      · rw [if_pos hcd]
        refine ⟨(relaxLoop ci cur cur_dist (ci.outgoing_edges_dict cur) U P).2,
          dictSet cur cur_dist V, cur_dist, rfl, hsettle hcd, ?_, ?_, ?_, ?_⟩
        · rcases inv'.labelV dest cur_dist (hsettle hcd) with ⟨h1, h2, _⟩ | ⟨h1, _⟩
          · exact Or.inl ⟨h1, h2⟩
          · exact Or.inr h1
        · exact inv'.lbV dest cur_dist (hsettle hcd)
        · exact inv'.pathBound dest
        · have hge : cur ∈ keys U := (mem_keys_iff_get cur U).mpr ⟨cur_dist, hcur⟩
          have : 1 ≤ U.length := by
            cases U with
            | nil => simp [keys] at hge
            | cons a b => simp
          omega
      · rw [if_neg hcd]
        have hfilter : (dictDel cur (relaxLoop ci cur cur_dist
            (ci.outgoing_edges_dict cur) U P).1).filter (fun p => decide (p.2 ≠ 0)) =
            dictDel cur (relaxLoop ci cur cur_dist (ci.outgoing_edges_dict cur) U P).1 := by
          rw [List.filter_eq_self]
          rintro ⟨e, d⟩ hp
          have hget : dictGet e (dictDel cur (relaxLoop ci cur cur_dist
              (ci.outgoing_edges_dict cur) U P).1) = some d :=
            mem_dictGet inv'.nodupU hp
          rcases inv'.labelU e d hget with ⟨h1, _, _⟩ | ⟨h1, _⟩
          · simp [h1, INF]
          · have := followCost_ge ci (pget (relaxLoop ci cur cur_dist
              (ci.outgoing_edges_dict cur) U P).2 e) s e d h1
            simp only [decide_eq_true_eq]
            omega
        rw [hfilter]
        have hne : dictDel cur (relaxLoop ci cur cur_dist
            (ci.outgoing_edges_dict cur) U P).1 ≠ [] := hU'
        obtain ⟨p, hsel⟩ := Option.isSome_iff_exists.mp (selectMin_isSome _ hne)
        obtain ⟨e', d'⟩ := p
        rw [hsel]
        obtain ⟨hmem, hminsel⟩ := selectMin_spec _ _ hsel
        have hd' : dictGet e' (dictDel cur (relaxLoop ci cur cur_dist
            (ci.outgoing_edges_dict cur) U P).1) = some d' :=
          mem_dictGet inv'.nodupU hmem
        have hminU : ∀ f df, dictGet f (dictDel cur (relaxLoop ci cur cur_dist
            (ci.outgoing_edges_dict cur) U P).1) = some df → d' ≤ df :=
          fun f df hdf => hminsel (f, df) (dictGet_mem hdf)
        have hV'none : dictGet e' (dictSet cur cur_dist V) = none :=
          inv'.disj e' ((mem_keys_iff_get e' _).mpr ⟨d', hd'⟩)
        have hcrux' : ∀ dl c, followCost ci s dl = some (e', c) → d' ≤ c :=
          fun dl c h => inv'.min_lower_bound hclos hminU dl e' c h hV'none
        have hdest' := hdest_not_gone (fun h => hcd h.symm)
        have hfuel' : (dictDel cur (relaxLoop ci cur cur_dist
            (ci.outgoing_edges_dict cur) U P).1).length ≤ fuel := by omega
        obtain ⟨P', V'', d, hres, hgetd, hlabel, hlb, hpb, hvb⟩ :=
          ih _ _ _ e' d' inv' hd' hcrux' hdest' hfuel'
        exact ⟨P', V'', d, hres, hgetd, hlabel, hlb, hpb, by omega⟩

/-- Full characterisation of `find_route` on a well-formed snapshot
(outgoing targets listed, per-edge direction keys unique, positive start
length, destination listed): it returns a pair whose decision list is
either empty alongside the untouched `INF` sentinel, or walks from the
start edge exactly to the destination at cost equal to the returned
distance (start edge's own length included); the returned distance
lower-bounds the cost of every decision path; and the decision list has at
most `|edge_list| + 1` entries. -/
lemma find_route_spec (ci : ConnectionInfo) (st dest : Edge) (deadline : Nat)
    (hclos : ∀ e, (e ∈ ci.edge_list ∨ e = st) →
      ∀ p ∈ ci.outgoing_edges_dict e, p.2 ∈ ci.edge_list)
    (hnodout : ∀ e, (keys (ci.outgoing_edges_dict e)).Nodup)
    (hposS : 0 < ci.edge_length_dict st)
    (hdest : dest ∈ ci.edge_list ∨ dest = st) :
    ∃ dl d, find_route ci st dest deadline = some (dl, d) ∧
      ((d = INF ∧ dl = []) ∨ followCost ci st dl = some (dest, d)) ∧
      (∀ dl' c, followCost ci st dl' = some (dest, c) → d ≤ c) ∧
      dl.length ≤ ci.edge_list.length + 1 := by
  have hgetU₀ : ∀ e, dictGet e
      (dictSet st (ci.edge_length_dict st) (buildDict INF ci.edge_list [])) =
      if e = st then some (ci.edge_length_dict st)
      else if e ∈ ci.edge_list then some INF else none := by
    intro e
    by_cases he : e = st
    · subst he
      rw [if_pos rfl, dictGet_dictSet_self]
    · rw [if_neg he, dictGet_dictSet_ne e st _ _ he, dictGet_buildDict]
      by_cases hel : e ∈ ci.edge_list
      · rw [if_pos hel, if_pos hel]
      · rw [if_neg hel, if_neg hel, dictGet]
  have hgetP₀ : ∀ e, pget (buildDict ([] : List Dir) ci.edge_list []) e = [] := by
    intro e
    rw [pget, dictGet_buildDict]
    by_cases hel : e ∈ ci.edge_list
    · rw [if_pos hel]
      rfl
    · rw [if_neg hel, dictGet]
      rfl
  have ndU₀ : (keys (dictSet st (ci.edge_length_dict st)
      (buildDict INF ci.edge_list []))).Nodup :=
    nodupKeys_dictSet st _ _ (nodupKeys_buildDict INF ci.edge_list [] (by simp [keys]))
  have ndP₀ : (keys (buildDict ([] : List Dir) ci.edge_list [])).Nodup :=
    nodupKeys_buildDict _ ci.edge_list [] (by simp [keys])
  have inv₀ : FRInv ci st (dictSet st (ci.edge_length_dict st) (buildDict INF ci.edge_list []))
      (buildDict ([] : List Dir) ci.edge_list []) [] := by
    refine ⟨ndU₀, ndP₀, by simp [keys], ?_, ?_, ?_, ?_, ?_, ?_, ?_, ?_, ?_⟩
    · intro e _
      rw [dictGet]
    · intro e
      constructor
      · rintro (he | he)
        · obtain ⟨v, hv⟩ := (mem_keys_iff_get e _).mp he
          rw [hgetU₀ e] at hv
          by_cases h1 : e = st
          · exact Or.inr h1
          · rw [if_neg h1] at hv
            by_cases h2 : e ∈ ci.edge_list
            · exact Or.inl h2
            · rw [if_neg h2] at hv
              cases hv
        · simp [keys] at he
      · intro he
        refine Or.inl ((mem_keys_iff_get e _).mpr ?_)
        rw [hgetU₀ e]
        by_cases h1 : e = st
        · rw [if_pos h1]
          exact ⟨_, rfl⟩
        · rcases he with he | he
          · rw [if_neg h1, if_pos he]
            exact ⟨_, rfl⟩
          · exact absurd he h1
    · intro e d hd
      rw [hgetU₀ e] at hd
      by_cases h1 : e = st
      · subst h1
        rw [if_pos rfl] at hd
        injection hd with hd
        subst hd
        refine Or.inr ⟨?_, fun h => absurd rfl h⟩
        rw [hgetP₀ e, followCost]
      · rw [if_neg h1] at hd
        by_cases h2 : e ∈ ci.edge_list
        · rw [if_pos h2] at hd
          injection hd with hd
          subst hd
          exact Or.inl ⟨rfl, hgetP₀ e, h1⟩
        · rw [if_neg h2] at hd
          cases hd
    · intro e d hd
      rw [dictGet] at hd
      cases hd
    · exact hgetP₀ st
    · intro d hd
      rw [hgetU₀ st, if_pos rfl] at hd
      injection hd with hd
      exact hd.symm
    · intro e d hd
      rw [dictGet] at hd
      cases hd
    · intro e dV hdV
      rw [dictGet] at hdV
      cases hdV
    · intro e
      rw [hgetP₀ e]
      simp
  have hcur₀ : dictGet st (dictSet st (ci.edge_length_dict st)
      (buildDict INF ci.edge_list [])) = some (ci.edge_length_dict st) :=
    dictGet_dictSet_self st _ _
  have hcrux₀ : ∀ dl c, followCost ci st dl = some (st, c) → ci.edge_length_dict st ≤ c :=
    fun dl c h => followCost_ge ci dl st st c h
  have hdest₀ : dest ∈ keys (dictSet st (ci.edge_length_dict st)
      (buildDict INF ci.edge_list [])) := by
    rw [mem_keys_iff_get, hgetU₀ dest]
    by_cases h1 : dest = st
    · rw [if_pos h1]
      exact ⟨_, rfl⟩
    · rcases hdest with hd | hd
      · rw [if_neg h1, if_pos hd]
        exact ⟨_, rfl⟩
      · exact absurd hd h1
  have hfuel₀ : (dictSet st (ci.edge_length_dict st)
      (buildDict INF ci.edge_list [])).length ≤ ci.edge_list.length + 2 := by
    have h1 := length_dictSet_le st (ci.edge_length_dict st) (buildDict INF ci.edge_list [])
    have h2 := length_buildDict_le INF ci.edge_list []
    simp only [List.length_nil] at h2
    omega
  obtain ⟨P', V', d, hres, hgetd, hlabel, hlb, hpb, hvb⟩ :=
    findRouteAux_spec ci st dest hclos hnodout hposS (ci.edge_list.length + 2)
      (dictSet st (ci.edge_length_dict st) (buildDict INF ci.edge_list []))
      (buildDict ([] : List Dir) ci.edge_list []) [] st (ci.edge_length_dict st)
      inv₀ hcur₀ hcrux₀ hdest₀ hfuel₀
  refine ⟨pget P' dest, d, ?_, ?_, hlb, ?_⟩
  · simp only [find_route]
    rw [hres]
    rfl
  · rcases hlabel with ⟨h1, h2⟩ | h1
    · exact Or.inl ⟨h1, h2⟩
    · exact Or.inr h1
  · have h1 := length_dictSet_le st (ci.edge_length_dict st) (buildDict INF ci.edge_list [])
    have h2 := length_buildDict_le INF ci.edge_list []
    simp only [List.length_nil] at h2
    simp only [List.length_nil, Nat.zero_add] at hvb
    have := hpb
    omega

/-- The cost of a walk is the start edge's length plus the sum of the
entered edges' lengths. -/
lemma followCost_enteredCost (ci : ConnectionInfo) :
    ∀ (dl : List Dir) (e : Edge),
      (followCost ci e dl).map Prod.snd =
      (enteredCost ci e dl).map (fun c => ci.edge_length_dict e + c) := by
  intro dl
  induction dl with
  | nil =>
    intro e
    rw [followCost, enteredCost]
    simp
  | cons d ds ih =>
    intro e
    rw [followCost, enteredCost]
    cases hd : dictGet d (ci.outgoing_edges_dict e) with
    | none => simp
    | some e' =>
      simp only []
      have hrel := ih e'
      cases hf : followCost ci e' ds with
      | none =>
        rw [hf] at hrel
        cases he : enteredCost ci e' ds with
        | none => simp
        | some c =>
          rw [he] at hrel
          exact Option.noConfusion hrel
      | some p =>
        obtain ⟨t, c⟩ := p
        rw [hf] at hrel
        cases he : enteredCost ci e' ds with
        | none =>
          rw [he] at hrel
          exact Option.noConfusion hrel
        | some c₀ =>
          rw [he] at hrel
          simp only [Option.map_some'] at hrel
          injection hrel with hrel
          show (some (t, ci.edge_length_dict e + c)).map Prod.snd =
            (some (ci.edge_length_dict e' + c₀)).map (fun c => ci.edge_length_dict e + c)
          simp only [Option.map_some']
          rw [hrel]

/-! ### Claims about `find_route` -/

/-- C2 as stated is false: on the two-isolated-edge snapshot `isoCI`
(positive lengths, both edges listed) with start `A` and destination `B`,
`find_route` returns `([], 1000000000)`; walking the returned (empty)
decision sequence lands on `A`, not on the destination `B` — indeed no
walk from `A` reaches `B` at all, so no true shortest-path distance
exists. -/
theorem C2_counterexample :
    find_route isoCI "A" "B" 0 = some ([], 1000000000) ∧
    followCost isoCI "A" [] = some ("A", 1) ∧
    ("A" : Edge) ≠ "B" ∧
    ¬ ∃ dl c, followCost isoCI "A" dl = some ("B", c) := by
  refine ⟨by decide, by decide, by decide, ?_⟩
  rintro ⟨dl, c, h⟩
  cases dl with
  | nil =>
    rw [followCost] at h
    injection h with h
    obtain ⟨h1, _⟩ := Prod.mk.injEq .. ▸ h
    exact absurd h1 (by decide)
  | cons d ds =>
    rw [followCost] at h
    split at h
    · simp at h
    · rename_i e' hd
      rw [show isoCI.outgoing_edges_dict "A" = [] from rfl, dictGet] at hd
      cases hd

/-- C2 (amended): on a well-formed snapshot (outgoing targets listed,
per-edge direction keys unique, positive edge lengths, start and
destination listed), *provided the destination is reachable from the start
by some decision path of cumulative cost below the `1000000000` sentinel*,
`find_route` returns a distance equal to the true shortest-path distance
(in `find_route`'s convention, which includes the start edge's length —
see C10) and a decision sequence that, walked against the topology, lands
exactly on the destination edge with that cost. -/
theorem C2_amended (ci : ConnectionInfo) (st dest : Edge) (deadline : Nat)
    (hclos : ∀ e ∈ st :: ci.edge_list, ∀ p ∈ ci.outgoing_edges_dict e, p.2 ∈ ci.edge_list)
    (hnodout : ∀ e, (keys (ci.outgoing_edges_dict e)).Nodup)
    (hpos : ∀ e ∈ st :: ci.edge_list, 0 < ci.edge_length_dict e)
    (hst : st ∈ ci.edge_list) (hdest : dest ∈ ci.edge_list)
    (hreach : ∃ dl c, followCost ci st dl = some (dest, c) ∧ c < INF) :
    ∃ dl d, find_route ci st dest deadline = some (dl, d) ∧
      followCost ci st dl = some (dest, d) ∧
      (∀ dl' c, followCost ci st dl' = some (dest, c) → d ≤ c) := by
  obtain ⟨dl, d, hres, hlabel, hlb, _⟩ :=
    find_route_spec ci st dest deadline
      (fun e he => hclos e (List.mem_cons.mpr he.symm)) hnodout
      (hpos st (List.mem_cons_self st _)) (Or.inl hdest)
  obtain ⟨dlw, cw, hw, hcw⟩ := hreach
  have hdlt : d < INF := by
    have := hlb dlw cw hw
    omega
  rcases hlabel with ⟨h1, _⟩ | h1
  · omega
  · exact ⟨dl, d, hres, h1, hlb⟩

/-- Witness for `C2_amended` on the diamond: the shortest route from `A`
to `D` is `["s", "s"]` at cost `30`. -/
theorem C2_witness :
    ((∀ e ∈ "A" :: diamondCI.edge_list, ∀ p ∈ diamondCI.outgoing_edges_dict e,
        p.2 ∈ diamondCI.edge_list) ∧
     (∀ e, (keys (diamondCI.outgoing_edges_dict e)).Nodup) ∧
     (∀ e ∈ "A" :: diamondCI.edge_list, 0 < diamondCI.edge_length_dict e) ∧
     "A" ∈ diamondCI.edge_list ∧ "D" ∈ diamondCI.edge_list ∧
     (∃ dl c, followCost diamondCI "A" dl = some ("D", c) ∧ c < INF)) ∧
    (∃ dl d, find_route diamondCI "A" "D" 7 = some (dl, d) ∧
      followCost diamondCI "A" dl = some ("D", d) ∧
      (∀ dl' c, followCost diamondCI "A" dl' = some ("D", c) → d ≤ c)) := by
  have hnod : ∀ e, (keys (diamondCI.outgoing_edges_dict e)).Nodup := by
    intro e
    show (keys (if e = "A" then _ else if e = "B" then _ else if e = "C" then _ else _)).Nodup
    split_ifs <;> decide
  refine ⟨⟨by decide, hnod, by decide, by decide, by decide,
    ⟨["s", "s"], 30, by decide, by decide⟩⟩, ?_⟩
  exact C2_amended diamondCI "A" "D" 7 (by decide) hnod (by decide) (by decide) (by decide)
    ⟨["s", "s"], 30, by decide, by decide⟩

/-- C6: on every snapshot with positive edge lengths (and well-formed
dictionaries: outgoing targets listed, per-edge direction keys unique) and
every start and destination edge in the edge list, `find_route` returns a
pair — the embedding's fuel, an artifact of translating `while True`, is
proved sufficient, so the source loop terminates; dead-end edges (empty
outgoing dictionaries) are allowed and simply extend nothing.  When the
destination is unreachable from the start, the returned decision list is
empty. -/
theorem C6_termination (ci : ConnectionInfo) (st dest : Edge) (deadline : Nat)
    (hclos : ∀ e ∈ st :: ci.edge_list, ∀ p ∈ ci.outgoing_edges_dict e, p.2 ∈ ci.edge_list)
    (hnodout : ∀ e, (keys (ci.outgoing_edges_dict e)).Nodup)
    (hpos : ∀ e ∈ st :: ci.edge_list, 0 < ci.edge_length_dict e)
    (hst : st ∈ ci.edge_list) (hdest : dest ∈ ci.edge_list) :
    ∃ dl d, find_route ci st dest deadline = some (dl, d) ∧
      ((¬ ∃ dl' c, followCost ci st dl' = some (dest, c)) → dl = []) := by
  obtain ⟨dl, d, hres, hlabel, _, _⟩ :=
    find_route_spec ci st dest deadline
      (fun e he => hclos e (List.mem_cons.mpr he.symm)) hnodout
      (hpos st (List.mem_cons_self st _)) (Or.inl hdest)
  refine ⟨dl, d, hres, ?_⟩
  intro hunreach
  rcases hlabel with ⟨_, h2⟩ | h1
  · exact h2
  · exact absurd ⟨dl, d, h1⟩ hunreach

/-- Witness for `C6_termination` on the two-isolated-edge snapshot, where
the destination is unreachable and `B` is a dead end: the unreachable
case returns the empty decision list. -/
theorem C6_witness :
    ((∀ e ∈ "A" :: isoCI.edge_list, ∀ p ∈ isoCI.outgoing_edges_dict e,
        p.2 ∈ isoCI.edge_list) ∧
     (∀ e, (keys (isoCI.outgoing_edges_dict e)).Nodup) ∧
     (∀ e ∈ "A" :: isoCI.edge_list, 0 < isoCI.edge_length_dict e) ∧
     "A" ∈ isoCI.edge_list ∧ "B" ∈ isoCI.edge_list) ∧
    (∃ dl d, find_route isoCI "A" "B" 3 = some (dl, d) ∧
      ((¬ ∃ dl' c, followCost isoCI "A" dl' = some ("B", c)) → dl = [])) := by
  refine ⟨⟨by decide, fun _ => List.nodup_nil, by decide, by decide, by decide⟩, ?_⟩
  exact C6_termination isoCI "A" "B" 3 (by decide) (fun _ => List.nodup_nil) (by decide)
    (by decide) (by decide)

/-- C10: whenever the destination is settled by the search — that is,
reachable from the start within the `1000000000` sentinel, so the loop
stops at the destination with a genuine label — the returned distance
equals the length of the start edge itself plus the sum of the lengths of
the edges entered along the returned decision sequence: the start edge's
tentative label is initialised to its own length (source line 103), never
to zero, so the reported distance always includes it. -/
theorem C10_distance_convention (ci : ConnectionInfo) (st dest : Edge) (deadline : Nat)
    (hclos : ∀ e ∈ st :: ci.edge_list, ∀ p ∈ ci.outgoing_edges_dict e, p.2 ∈ ci.edge_list)
    (hnodout : ∀ e, (keys (ci.outgoing_edges_dict e)).Nodup)
    (hpos : ∀ e ∈ st :: ci.edge_list, 0 < ci.edge_length_dict e)
    (hst : st ∈ ci.edge_list) (hdest : dest ∈ ci.edge_list)
    (hreach : ∃ dl c, followCost ci st dl = some (dest, c) ∧ c < INF) :
    ∃ dl d c₀, find_route ci st dest deadline = some (dl, d) ∧
      enteredCost ci st dl = some c₀ ∧
      d = ci.edge_length_dict st + c₀ := by
  obtain ⟨dl, d, hres, hwalk, _⟩ :=
    C2_amended ci st dest deadline hclos hnodout hpos hst hdest hreach
  have hrel := followCost_enteredCost ci dl st
  rw [hwalk] at hrel
  cases he : enteredCost ci st dl with
  | none =>
    rw [he] at hrel
    exact Option.noConfusion hrel
  | some c₀ =>
    rw [he] at hrel
    simp only [Option.map_some'] at hrel
    injection hrel with hrel
    exact ⟨dl, d, c₀, hres, he, hrel⟩

/-- Witness for `C10_distance_convention` on the diamond: distance `30 =
10 (start edge A) + 10 + 10` for the route `["s", "s"]`. -/
theorem C10_witness :
    ((∀ e ∈ "A" :: diamondCI.edge_list, ∀ p ∈ diamondCI.outgoing_edges_dict e,
        p.2 ∈ diamondCI.edge_list) ∧
     (∀ e, (keys (diamondCI.outgoing_edges_dict e)).Nodup) ∧
     (∀ e ∈ "A" :: diamondCI.edge_list, 0 < diamondCI.edge_length_dict e) ∧
     "A" ∈ diamondCI.edge_list ∧ "D" ∈ diamondCI.edge_list ∧
     (∃ dl c, followCost diamondCI "A" dl = some ("D", c) ∧ c < INF)) ∧
    (∃ dl d c₀, find_route diamondCI "A" "D" 9 = some (dl, d) ∧
      enteredCost diamondCI "A" dl = some c₀ ∧
      d = diamondCI.edge_length_dict "A" + c₀) := by
  have hnod : ∀ e, (keys (diamondCI.outgoing_edges_dict e)).Nodup := by
    intro e
    show (keys (if e = "A" then _ else if e = "B" then _ else if e = "C" then _ else _)).Nodup
    split_ifs <;> decide
  refine ⟨⟨by decide, hnod, by decide, by decide, by decide,
    ⟨["s", "s"], 30, by decide, by decide⟩⟩, ?_⟩
  exact C10_distance_convention diamondCI "A" "D" 9 (by decide) hnod (by decide) (by decide)
    (by decide) ⟨["s", "s"], 30, by decide, by decide⟩

/-! ### The planning loop: no uncaught exceptions and termination -/

lemma keys_dictSet_of_not_mem {α : Type} (k : String) (v : α) (d : List (String × α))
    (h : k ∉ keys d) : keys (dictSet k v d) = keys d ++ [k] := by
  induction d with
  | nil => rw [dictSet, keys_cons]; rfl
  | cons p rest ih =>
    obtain ⟨k', v'⟩ := p
    have hk : k' ≠ k := by
      rintro rfl
      exact h (by rw [keys_cons]; exact List.mem_cons_self _ _)
    have hrest : k ∉ keys rest := by
      intro hm
      exact h (by rw [keys_cons]; exact List.mem_cons_of_mem _ hm)
    rw [dictSet_cons_ne k' k v v' rest hk, keys_cons, keys_cons, ih hrest]
    rfl

lemma length_filter_le_of_imp (p q : Edge → Prop) [DecidablePred p] [DecidablePred q]
    (himp : ∀ a, p a → q a) :
    ∀ l : List Edge, (l.filter (fun a => decide (p a))).length ≤
      (l.filter (fun a => decide (q a))).length := by
  intro l
  induction l with
  | nil => simp
  | cons a rest ih =>
    by_cases hp : p a
    · have hq := himp a hp
      rw [List.filter_cons_of_pos (by simpa using hp), List.filter_cons_of_pos (by simpa using hq)]
      simpa using ih
    · rw [List.filter_cons_of_neg (by simpa using hp)]
      by_cases hq : q a
      · rw [List.filter_cons_of_pos (by simpa using hq)]
        simp only [List.length_cons]
        omega
      · rw [List.filter_cons_of_neg (by simpa using hq)]
        exact ih

/-- Visiting a fresh listed edge strictly shrinks the unvisited-filter. -/
lemma length_filter_append_lt (edges : List Edge) (cur : Edge) :
    ∀ l : List Edge, cur ∈ l → cur ∉ edges →
      (l.filter (fun a => decide (a ∉ edges ++ [cur]))).length <
      (l.filter (fun a => decide (a ∉ edges))).length := by
  intro l
  induction l with
  | nil => simp
  | cons a rest ih =>
    intro hcur hne
    rcases List.mem_cons.mp hcur with rfl | hcur'
    · have h1 : List.filter (fun x => decide (x ∉ edges ++ [cur])) (cur :: rest) =
          List.filter (fun x => decide (x ∉ edges ++ [cur])) rest := by
        simp [List.filter_cons]
      have h2 : List.filter (fun x => decide (x ∉ edges)) (cur :: rest) =
          cur :: List.filter (fun x => decide (x ∉ edges)) rest := by
        simp [List.filter_cons, hne]
      rw [h1, h2]
      have := length_filter_le_of_imp (fun a => a ∉ edges ++ [cur]) (fun a => a ∉ edges)
        (fun a ha hm => ha (List.mem_append_left _ hm)) rest
      simp only [List.length_cons]
      omega
    · by_cases ha : a ∈ edges
      · have h1 : List.filter (fun x => decide (x ∉ edges ++ [cur])) (a :: rest) =
            List.filter (fun x => decide (x ∉ edges ++ [cur])) rest := by
          simp [List.filter_cons, ha]
        have h2 : List.filter (fun x => decide (x ∉ edges)) (a :: rest) =
            List.filter (fun x => decide (x ∉ edges)) rest := by
          simp [List.filter_cons, ha]
        rw [h1, h2]
        exact ih hcur' hne
      · by_cases hac : a = cur
        · subst hac
          have h1 : List.filter (fun x => decide (x ∉ edges ++ [a])) (a :: rest) =
              List.filter (fun x => decide (x ∉ edges ++ [a])) rest := by
            simp [List.filter_cons]
          have h2 : List.filter (fun x => decide (x ∉ edges)) (a :: rest) =
              a :: List.filter (fun x => decide (x ∉ edges)) rest := by
            simp [List.filter_cons, ha]
          rw [h1, h2]
          have := length_filter_le_of_imp (fun x => x ∉ edges ++ [a]) (fun x => x ∉ edges)
            (fun x hx hm => hx (List.mem_append_left _ hm)) rest
          simp only [List.length_cons]
          omega
        · have h1 : List.filter (fun x => decide (x ∉ edges ++ [cur])) (a :: rest) =
              a :: List.filter (fun x => decide (x ∉ edges ++ [cur])) rest := by
            simp [List.filter_cons, ha, hac]
          have h2 : List.filter (fun x => decide (x ∉ edges)) (a :: rest) =
              a :: List.filter (fun x => decide (x ∉ edges)) rest := by
            simp [List.filter_cons, ha]
          rw [h1, h2]
          simp only [List.length_cons]
          have := ih hcur' hne
          omega

/-- On the empty decision list the resolver hands back the vehicle's
current edge (the `exhausted` warning path, or the vehicle is already at
its destination). -/
lemma compute_local_target_nil (ci : ConnectionInfo) (v : Vehicle) :
    compute_local_target ci [] v = v.current_edge := by
  rw [compute_local_target, cltAux]
  by_cases h1 : (0 : Nat) ≤ max v.current_speed 20
  · by_cases h2 : v.current_edge = v.destination <;> simp [h1, h2]
  · simp [h1]

/-- Best effort: whatever the exit (success, exhaustion, invalid direction
or turn-around loop), the edge returned by the resolver is genuinely
reached by walking some consumed prefix of the decision list from the
vehicle's current edge. -/
lemma cltAux_reaches (ci : ConnectionInfo) (v : Vehicle) :
    ∀ (dl : List Dir) (prev : Option Dir) (pl : Nat) (cur : Edge),
      ∃ dl₁ dl₂, dl = dl₁ ++ dl₂ ∧
        (followCost ci cur dl₁).map Prod.fst = some ((cltAux ci v dl prev pl cur).1) := by
  intro dl
  induction dl with
  | nil =>
    intro prev pl cur
    refine ⟨[], [], rfl, ?_⟩
    rw [cltAux]
    by_cases h1 : pl ≤ max v.current_speed 20
    · by_cases h2 : cur = v.destination <;> simp [h1, h2, followCost]
    · simp [h1, followCost]
  | cons choice rest' ih =>
    intro prev pl cur
    rw [cltAux]
    by_cases h1 : pl ≤ max v.current_speed 20
    · by_cases h2 : cur = v.destination
      · exact ⟨[], choice :: rest', rfl, by simp [h1, h2, followCost]⟩
      · simp only [if_pos h1, if_neg h2]
        cases hd : dictGet choice (ci.outgoing_edges_dict cur) with
        | none => exact ⟨[], choice :: rest', rfl, by simp [followCost]⟩
        | some e =>
          simp only []
          by_cases h3 : prev = some choice ∧ choice = "t"
          · refine ⟨[choice], rest', rfl, ?_⟩
            rw [if_pos h3]
            have hfc : followCost ci cur [choice] =
                some (e, ci.edge_length_dict cur + ci.edge_length_dict e) := by
              simp only [followCost, hd]
            rw [hfc]
            rfl
          · rw [if_neg h3]
            obtain ⟨dl₁, dl₂, heq, hwalk⟩ := ih (some choice) (pl + ci.edge_length_dict e) e
            refine ⟨choice :: dl₁, dl₂, by rw [heq]; rfl, ?_⟩
            cases hf : followCost ci e dl₁ with
            | none =>
              rw [hf] at hwalk
              exact Option.noConfusion hwalk
            | some p =>
              obtain ⟨t, c⟩ := p
              rw [hf] at hwalk
              have hfc : followCost ci cur (choice :: dl₁) =
                  some (t, ci.edge_length_dict cur + c) := by
                simp only [followCost, hd, hf]
              rw [hfc]
              simp only [Option.map_some'] at hwalk ⊢
              exact hwalk
    · exact ⟨[], choice :: rest', rfl, by simp [h1, followCost]⟩

/-- `find_route` under the planner's well-formedness bundle: it succeeds,
its nonempty results walk from the start to the destination, and its
length is bounded by the number of listed edges plus one. -/
lemma find_route_pack (ci : ConnectionInfo) (st dest : Edge) (deadline : Nat)
    (hclosL : ∀ e ∈ ci.edge_list, ∀ p ∈ ci.outgoing_edges_dict e, p.2 ∈ ci.edge_list)
    (hnodout : ∀ e, (keys (ci.outgoing_edges_dict e)).Nodup)
    (hposL : ∀ e ∈ ci.edge_list, 0 < ci.edge_length_dict e)
    (hstL : st ∈ ci.edge_list) (hdestL : dest ∈ ci.edge_list) :
    ∃ sp d, find_route ci st dest deadline = some (sp, d) ∧
      (sp ≠ [] → ∃ c, followCost ci st sp = some (dest, c)) ∧
      sp.length ≤ ci.edge_list.length + 1 := by
  obtain ⟨dl, d, hres, hlabel, _, hlen⟩ :=
    find_route_spec ci st dest deadline
      (fun e he => by
        rcases he with h | h
        · exact hclosL e h
        · exact h ▸ hclosL st hstL)
      hnodout (hposL st hstL) (Or.inl hdestL)
  refine ⟨dl, d, hres, ?_, hlen⟩
  intro hne
  rcases hlabel with ⟨_, h2⟩ | h1
  · exact absurd h2 hne
  · exact ⟨d, h1⟩

/-- Eliminating an empty walk: it ends where it starts. -/
lemma followCost_nil_elim (ci : ConnectionInfo) {e t : Edge} {c : Nat}
    (h : followCost ci e [] = some (t, c)) : t = e := by
  rw [followCost] at h
  injection h with h
  exact (Prod.mk.injEq .. ▸ h).1.symm

/-- Eliminating one step of a walk: a successful walk along `d :: ds`
begins with a valid direction `d`, and its tail is a successful walk from
the entered edge ending at the same final edge. -/
lemma followCost_cons_elim (ci : ConnectionInfo) {cur : Edge} {d : Dir} {ds : List Dir}
    {t : Edge} {c : Nat} (h : followCost ci cur (d :: ds) = some (t, c)) :
    ∃ e', dictGet d (ci.outgoing_edges_dict cur) = some e' ∧
      ∃ c', followCost ci e' ds = some (t, c') := by
  rw [followCost] at h
  split at h
  · exact Option.noConfusion h
  · rename_i e' hd
    split at h
    · exact Option.noConfusion h
    · rename_i t' c' hf
      injection h with h
      obtain ⟨h1, _⟩ := Prod.mk.injEq .. ▸ h
      subst h1
      exact ⟨e', hd, c', hf⟩

/-- The inner `for choice in outgoing` alternative-scan of the planning
loop (source lines 180-193): it always yields a triple, the triple is
either the input one or has an out-edge not yet visited this tick, and it
preserves the `PlanTriple` invariant. -/
lemma choiceLoop_spec (ci : ConnectionInfo) (v : Vehicle)
    (hclosL : ∀ e ∈ ci.edge_list, ∀ p ∈ ci.outgoing_edges_dict e, p.2 ∈ ci.edge_list)
    (hnodout : ∀ e, (keys (ci.outgoing_edges_dict e)).Nodup)
    (hposL : ∀ e ∈ ci.edge_list, 0 < ci.edge_length_dict e)
    (hdestL : v.destination ∈ ci.edge_list)
    (edges : List Edge) (direct : Dir) (current : Edge) (hcurL : current ∈ ci.edge_list) :
    ∀ (lst : List (Dir × Edge)), (∀ p ∈ lst, p ∈ ci.outgoing_edges_dict current) →
    ∀ (out_edge : Edge) (sp : List Dir) (distance : Nat),
      PlanTriple ci v current out_edge sp →
      ∃ oe sp' d', choiceLoop ci v edges direct lst out_edge sp distance = some (oe, sp', d') ∧
        ((oe = out_edge ∧ sp' = sp ∧ d' = distance) ∨ oe ∉ edges) ∧
        PlanTriple ci v current oe sp' := by
  intro lst
  induction lst with
  | nil =>
    intro _ out_edge sp distance htri
    rw [choiceLoop]
    exact ⟨out_edge, sp, distance, rfl, Or.inl ⟨rfl, rfl, rfl⟩, htri⟩
  | cons p rest ih =>
    intro hlst out_edge sp distance htri
    obtain ⟨choice, oe2⟩ := p
    have ihrest := ih (fun q hq => hlst q (List.mem_cons_of_mem _ hq))
    by_cases h1 : choice = direct
    · have hstep : choiceLoop ci v edges direct ((choice, oe2) :: rest) out_edge sp distance =
          choiceLoop ci v edges direct rest out_edge sp distance := by
        rw [choiceLoop, if_pos h1]
      rw [hstep]
      exact ihrest out_edge sp distance htri
    · by_cases h2 : viableAlt ci v.destination edges out_edge oe2
      · have hoe2L : oe2 ∈ ci.edge_list :=
          hclosL current hcurL (choice, oe2) (hlst _ (List.mem_cons_self _ _))
        obtain ⟨sp2, d2, hfr, hwalk2, hlen2⟩ :=
          find_route_pack ci oe2 v.destination v.deadline hclosL hnodout hposL hoe2L hdestL
        have hstep : choiceLoop ci v edges direct ((choice, oe2) :: rest) out_edge sp distance =
            if acceptOver ci out_edge oe2 distance d2 then
              choiceLoop ci v edges direct rest oe2 (choice :: sp2) d2
            else choiceLoop ci v edges direct rest out_edge sp distance := by
          rw [choiceLoop, if_neg h1, if_pos h2, hfr]
        rw [hstep]
        by_cases h3 : acceptOver ci out_edge oe2 distance d2
        · rw [if_pos h3]
          have htri2 : PlanTriple ci v current oe2 (choice :: sp2) :=
            ⟨⟨choice, sp2, rfl, mem_dictGet (hnodout current) (hlst _ (List.mem_cons_self _ _)),
              hwalk2, hlen2⟩, hoe2L⟩
          obtain ⟨oe, sp', d', hres, hdich, htri'⟩ := ihrest oe2 (choice :: sp2) d2 htri2
          refine ⟨oe, sp', d', hres, Or.inr ?_, htri'⟩
          rcases hdich with ⟨ha, _, _⟩ | hfresh
          · rw [ha]
            exact h2.2.1
          · exact hfresh
        · rw [if_neg h3]
          exact ihrest out_edge sp distance htri
      · have hstep : choiceLoop ci v edges direct ((choice, oe2) :: rest) out_edge sp distance =
            choiceLoop ci v edges direct rest out_edge sp distance := by
          rw [choiceLoop, if_neg h1, if_neg h2]
        rw [hstep]
        exact ihrest out_edge sp distance htri

/-- One vehicle's planning loop terminates with a decision list (no
exception, no fuel-out) on every well-formed snapshot, from any loop state
satisfying the loop invariant, given fuel exceeding the loop measure. -/
lemma planAux_ok (ci : ConnectionInfo) (avg : Nat) (v : Vehicle)
    (hclosL : ∀ e ∈ ci.edge_list, ∀ p ∈ ci.outgoing_edges_dict e, p.2 ∈ ci.edge_list)
    (hnodout : ∀ e, (keys (ci.outgoing_edges_dict e)).Nodup)
    (hposL : ∀ e ∈ ci.edge_list, 0 < ci.edge_length_dict e)
    (hdestL : v.destination ∈ ci.edge_list) :
    ∀ (fuel : Nat) (current : Edge) (edges : List Edge) (sp : List Dir) (distance : Nat)
      (dl : List Dir),
      current ∈ ci.edge_list →
      (sp ≠ [] → ∃ c, followCost ci current sp = some (v.destination, c)) →
      sp.length ≤ ci.edge_list.length + 1 →
      (sp = [] → current ∉ edges ∨ current = v.destination) →
      (ci.edge_list.dedup.filter (fun e => decide (e ∉ edges))).length *
          (2 * ci.edge_list.length + 3) + sp.length +
        (if current ∈ edges then ci.edge_list.length + 1 else 0) < fuel →
      ∃ dl', planAux ci avg v fuel current edges sp distance dl = PRes.ok dl' := by
  intro fuel
  induction fuel with
  | zero =>
    intro current edges sp distance dl _ _ _ _ hfuel
    exact absurd hfuel (Nat.not_lt_zero _)
  | succ fuel ih =>
    intro current edges sp distance dl hcurL hwalk hlen hempty hfuel
    by_cases hdone : current = v.destination
    · exact ⟨dl, by rw [planAux, if_pos hdone]⟩
    · cases sp with
      | nil =>
        have hcurNE : current ∉ edges := (hempty rfl).resolve_right hdone
        obtain ⟨sp1, d1, hfr, hwalk1, hlen1⟩ :=
          find_route_pack ci current v.destination v.deadline hclosL hnodout hposL hcurL hdestL
        cases sp1 with
        | nil =>
          refine ⟨dl, ?_⟩
          simp only [planAux]
          rw [if_neg hdone]
          simp only [if_true, hfr]
        | cons direct rest1 =>
          obtain ⟨c1, hfc1⟩ := hwalk1 (by simp)
          obtain ⟨e2, hlookup, c2, hf2⟩ := followCost_cons_elim ci hfc1
          have he2L : e2 ∈ ci.edge_list :=
            hclosL current hcurL (direct, e2) (dictGet_mem hlookup)
          have htri1 : PlanTriple ci v current e2 (direct :: rest1) := by
            refine ⟨⟨direct, rest1, rfl, hlookup, fun _ => ⟨c2, hf2⟩, ?_⟩, he2L⟩
            have := hlen1
            simp only [List.length_cons] at this
            omega
          obtain ⟨oe, sp2, d2, hsel, hdich, htri2⟩ :
              ∃ oe sp2 d2,
                (if avg < v.deadline then
                   choiceLoop ci v (edges ++ [current]) direct (ci.outgoing_edges_dict current)
                     e2 (direct :: rest1) d1
                 else some (e2, direct :: rest1, d1)) = some (oe, sp2, d2) ∧
                ((oe = e2 ∧ sp2 = direct :: rest1 ∧ d2 = d1) ∨ oe ∉ edges ++ [current]) ∧
                PlanTriple ci v current oe sp2 := by
            by_cases havg : avg < v.deadline
            · rw [if_pos havg]
              exact choiceLoop_spec ci v hclosL hnodout hposL hdestL (edges ++ [current])
                direct current hcurL (ci.outgoing_edges_dict current) (fun _ hq => hq)
                e2 (direct :: rest1) d1 htri1
            · rw [if_neg havg]
              exact ⟨e2, direct :: rest1, d1, rfl, Or.inl ⟨rfl, rfl, rfl⟩, htri1⟩
          obtain ⟨⟨ch, rest2, hsp2, hch, hrest2walk, hrest2len⟩, hoeL⟩ := htri2
          subst hsp2
          have hstep : planAux ci avg v (fuel + 1) current edges [] distance dl =
              planAux ci avg v fuel oe (edges ++ [current]) rest2 d2 (dl ++ [ch]) := by
            simp only [planAux]
            rw [if_neg hdone]
            simp only [if_true, hfr, hlookup, hsel]
          rw [hstep]
          refine ih oe (edges ++ [current]) rest2 d2 (dl ++ [ch]) hoeL hrest2walk hrest2len ?_ ?_
          · intro h0
            rcases hdich with ⟨ha, hb, _⟩ | hfresh
            · injection hb with hb1 hb2
              rw [h0] at hb2
              rw [← hb2] at hf2
              have hde := followCost_nil_elim ci hf2
              exact Or.inr (ha.trans hde.symm)
            · exact Or.inl hfresh
          · have hbnd : (if oe ∈ edges ++ [current] then ci.edge_list.length + 1 else 0) ≤
                ci.edge_list.length + 1 := by
              split
              · exact Nat.le_refl _
              · exact Nat.zero_le _
            have hFlt := length_filter_append_lt edges current ci.edge_list.dedup
              (List.mem_dedup.mpr hcurL) hcurNE
            have h2 : ((ci.edge_list.dedup.filter
                  (fun e => decide (e ∉ edges ++ [current]))).length + 1) *
                  (2 * ci.edge_list.length + 3) ≤
                (ci.edge_list.dedup.filter (fun e => decide (e ∉ edges))).length *
                  (2 * ci.edge_list.length + 3) :=
              Nat.mul_le_mul_right _ (Nat.succ_le_of_lt hFlt)
            rw [Nat.succ_mul] at h2
            rw [if_neg hcurNE] at hfuel
            simp only [List.length_nil] at hfuel
            omega
      | cons d ds =>
        obtain ⟨c1, hfc1⟩ := hwalk (by simp)
        obtain ⟨e2, hlookup, c2, hf2⟩ := followCost_cons_elim ci hfc1
        have he2L : e2 ∈ ci.edge_list :=
          hclosL current hcurL (d, e2) (dictGet_mem hlookup)
        have heq1 : (if (d :: ds) = ([] : List Dir) then
              find_route ci current v.destination v.deadline
            else some (d :: ds, distance)) = some (d :: ds, distance) := by
          rw [if_neg (by simp)]
        have htri1 : PlanTriple ci v current e2 (d :: ds) := by
          refine ⟨⟨d, ds, rfl, hlookup, fun _ => ⟨c2, hf2⟩, ?_⟩, he2L⟩
          simp only [List.length_cons] at hlen
          omega
        obtain ⟨oe, sp2, d2, hsel, hdich, htri2⟩ :
            ∃ oe sp2 d2,
              (if avg < v.deadline then
                 choiceLoop ci v (edges ++ [current]) d (ci.outgoing_edges_dict current)
                   e2 (d :: ds) distance
               else some (e2, d :: ds, distance)) = some (oe, sp2, d2) ∧
              ((oe = e2 ∧ sp2 = d :: ds ∧ d2 = distance) ∨ oe ∉ edges ++ [current]) ∧
              PlanTriple ci v current oe sp2 := by
          by_cases havg : avg < v.deadline
          · rw [if_pos havg]
            exact choiceLoop_spec ci v hclosL hnodout hposL hdestL (edges ++ [current])
              d current hcurL (ci.outgoing_edges_dict current) (fun _ hq => hq)
              e2 (d :: ds) distance htri1
          · rw [if_neg havg]
            exact ⟨e2, d :: ds, distance, rfl, Or.inl ⟨rfl, rfl, rfl⟩, htri1⟩
        obtain ⟨⟨ch, rest2, hsp2, hch, hrest2walk, hrest2len⟩, hoeL⟩ := htri2
        subst hsp2
        have hstep : planAux ci avg v (fuel + 1) current edges (d :: ds) distance dl =
            planAux ci avg v fuel oe (edges ++ [current]) rest2 d2 (dl ++ [ch]) := by
          simp only [planAux]
          rw [if_neg hdone]
          simp only [heq1, hlookup, hsel]
        rw [hstep]
        refine ih oe (edges ++ [current]) rest2 d2 (dl ++ [ch]) hoeL hrest2walk hrest2len ?_ ?_
        · intro h0
          rcases hdich with ⟨ha, hb, _⟩ | hfresh
          · injection hb with hb1 hb2
            rw [h0] at hb2
            rw [← hb2] at hf2
            have hde := followCost_nil_elim ci hf2
            exact Or.inr (ha.trans hde.symm)
          · exact Or.inl hfresh
        · have hbnd : (if oe ∈ edges ++ [current] then ci.edge_list.length + 1 else 0) ≤
              ci.edge_list.length + 1 := by
            split
            · exact Nat.le_refl _
            · exact Nat.zero_le _
          by_cases hcur : current ∈ edges
          · rw [if_pos hcur] at hfuel
            simp only [List.length_cons] at hfuel
            have hFle : (ci.edge_list.dedup.filter
                  (fun e => decide (e ∉ edges ++ [current]))).length *
                  (2 * ci.edge_list.length + 3) ≤
                (ci.edge_list.dedup.filter (fun e => decide (e ∉ edges))).length *
                  (2 * ci.edge_list.length + 3) :=
              Nat.mul_le_mul_right _
                (length_filter_le_of_imp (fun a => a ∉ edges ++ [current])
                  (fun a => a ∉ edges) (fun a ha hm => ha (List.mem_append_left _ hm))
                  ci.edge_list.dedup)
            rcases hdich with ⟨_, hb, _⟩ | hfresh
            · injection hb with hb1 hb2
              have hlb : rest2.length = ds.length := by rw [hb2]
              omega
            · have hb0 : (if oe ∈ edges ++ [current] then ci.edge_list.length + 1 else 0) = 0 :=
                if_neg hfresh
              omega
          · rw [if_neg hcur] at hfuel
            simp only [List.length_cons] at hfuel
            have hFlt := length_filter_append_lt edges current ci.edge_list.dedup
              (List.mem_dedup.mpr hcurL) hcur
            have h2 : ((ci.edge_list.dedup.filter
                  (fun e => decide (e ∉ edges ++ [current]))).length + 1) *
                  (2 * ci.edge_list.length + 3) ≤
                (ci.edge_list.dedup.filter (fun e => decide (e ∉ edges))).length *
                  (2 * ci.edge_list.length + 3) :=
              Nat.mul_le_mul_right _ (Nat.succ_le_of_lt hFlt)
            rw [Nat.succ_mul] at h2
            omega

/-- One vehicle's planning loop from its initial state (`shortest_path`
and `edges` empty, at the vehicle's current edge) terminates with a
decision list: `planFuel` exceeds the initial loop measure. -/
lemma planStart_ok (ci : ConnectionInfo) (avg : Nat) (v : Vehicle)
    (hclosL : ∀ e ∈ ci.edge_list, ∀ p ∈ ci.outgoing_edges_dict e, p.2 ∈ ci.edge_list)
    (hnodout : ∀ e, (keys (ci.outgoing_edges_dict e)).Nodup)
    (hposL : ∀ e ∈ ci.edge_list, 0 < ci.edge_length_dict e)
    (hcurL : v.current_edge ∈ ci.edge_list) (hdestL : v.destination ∈ ci.edge_list) :
    ∃ dl, planAux ci avg v (planFuel ci) v.current_edge [] [] 0 [] = PRes.ok dl := by
  apply planAux_ok ci avg v hclosL hnodout hposL hdestL (planFuel ci) v.current_edge [] [] 0 []
    hcurL (fun h => absurd rfl h) (Nat.zero_le _) (fun _ => Or.inl (List.not_mem_nil _))
  rw [planFuel]
  have hF0 : (ci.edge_list.dedup.filter (fun e => decide (e ∉ ([] : List Edge)))).length ≤
      ci.edge_list.length :=
    le_trans (List.length_filter_le _ _) (List.Sublist.length_le (List.dedup_sublist _))
  have hmul : (ci.edge_list.dedup.filter (fun e => decide (e ∉ ([] : List Edge)))).length *
      (2 * ci.edge_list.length + 3) ≤
      ci.edge_list.length * (2 * ci.edge_list.length + 3) :=
    Nat.mul_le_mul_right _ hF0
  have hq : ci.edge_list.length * (2 * ci.edge_list.length + 3) =
      2 * ci.edge_list.length * ci.edge_list.length + 3 * ci.edge_list.length := by ring
  have hite : (if v.current_edge ∈ ([] : List Edge) then ci.edge_list.length + 1 else 0) = 0 :=
    if_neg (List.not_mem_nil _)
  simp only [List.length_nil]
  omega

/-- The batch loop of `make_decisions` never raises: on a well-formed
snapshot every vehicle's planning loop ends in `.ok`, so the fold over
the batch does too (no requirement on vehicle identifiers). -/
lemma mdAux_ok_total (ci : ConnectionInfo) (avg : Nat)
    (hclosL : ∀ e ∈ ci.edge_list, ∀ p ∈ ci.outgoing_edges_dict e, p.2 ∈ ci.edge_list)
    (hnodout : ∀ e, (keys (ci.outgoing_edges_dict e)).Nodup)
    (hposL : ∀ e ∈ ci.edge_list, 0 < ci.edge_length_dict e) :
    ∀ (vehicles : List Vehicle) (acc : List (String × Edge)),
      (∀ v ∈ vehicles, v.current_edge ∈ ci.edge_list ∧ v.destination ∈ ci.edge_list) →
      ∃ m, mdAux ci avg vehicles acc = MDRes.ok m := by
  intro vehicles
  induction vehicles with
  | nil =>
    intro acc _
    exact ⟨acc, by rw [mdAux]⟩
  | cons v rest ih =>
    intro acc hveh
    obtain ⟨dl, hpa⟩ := planStart_ok ci avg v hclosL hnodout hposL
      (hveh v (List.mem_cons_self _ _)).1 (hveh v (List.mem_cons_self _ _)).2
    obtain ⟨m, hm⟩ := ih (dictSet v.vehicle_id (compute_local_target ci dl v) acc)
      (fun v' hv' => hveh v' (List.mem_cons_of_mem _ hv'))
    refine ⟨m, ?_⟩
    rw [mdAux, hpa]
    exact hm

/-- The batch loop of `make_decisions` with its bookkeeping: with
pairwise-distinct vehicle identifiers fresh for the accumulator, it
returns `.ok` with exactly one entry appended per vehicle (in order),
existing entries preserved, and each vehicle's entry equal to
`compute_local_target` of its planned decision list. -/
lemma mdAux_ok (ci : ConnectionInfo) (avg : Nat)
    (hclosL : ∀ e ∈ ci.edge_list, ∀ p ∈ ci.outgoing_edges_dict e, p.2 ∈ ci.edge_list)
    (hnodout : ∀ e, (keys (ci.outgoing_edges_dict e)).Nodup)
    (hposL : ∀ e ∈ ci.edge_list, 0 < ci.edge_length_dict e) :
    ∀ (vehicles : List Vehicle) (acc : List (String × Edge)),
      (∀ v ∈ vehicles, v.current_edge ∈ ci.edge_list ∧ v.destination ∈ ci.edge_list) →
      (vehicles.map Vehicle.vehicle_id).Nodup →
      (∀ v ∈ vehicles, v.vehicle_id ∉ keys acc) →
      ∃ m, mdAux ci avg vehicles acc = MDRes.ok m ∧
        keys m = keys acc ++ vehicles.map Vehicle.vehicle_id ∧
        (∀ k, k ∉ vehicles.map Vehicle.vehicle_id → dictGet k m = dictGet k acc) ∧
        ∀ v ∈ vehicles, ∃ dl,
          planAux ci avg v (planFuel ci) v.current_edge [] [] 0 [] = PRes.ok dl ∧
          dictGet v.vehicle_id m = some (compute_local_target ci dl v) := by
  intro vehicles
  induction vehicles with
  | nil =>
    intro acc _ _ _
    exact ⟨acc, by rw [mdAux], by simp, fun k _ => rfl,
      fun v hv => absurd hv (List.not_mem_nil _)⟩
  | cons v rest ih =>
    intro acc hveh hnodup hfresh
    obtain ⟨dl, hpa⟩ := planStart_ok ci avg v hclosL hnodout hposL
      (hveh v (List.mem_cons_self _ _)).1 (hveh v (List.mem_cons_self _ _)).2
    have hstep : mdAux ci avg (v :: rest) acc =
        mdAux ci avg rest (dictSet v.vehicle_id (compute_local_target ci dl v) acc) := by
      rw [mdAux, hpa]
    have hvfresh : v.vehicle_id ∉ keys acc := hfresh v (List.mem_cons_self _ _)
    have hkacc : keys (dictSet v.vehicle_id (compute_local_target ci dl v) acc) =
        keys acc ++ [v.vehicle_id] := keys_dictSet_of_not_mem _ _ _ hvfresh
    simp only [List.map_cons] at hnodup
    have hvnotin : v.vehicle_id ∉ rest.map Vehicle.vehicle_id :=
      (List.nodup_cons.mp hnodup).1
    obtain ⟨m, hm, hkeys, hpres, hent⟩ :=
      ih (dictSet v.vehicle_id (compute_local_target ci dl v) acc)
        (fun v' hv' => hveh v' (List.mem_cons_of_mem _ hv'))
        (List.nodup_cons.mp hnodup).2
        (fun v' hv' => by
          rw [hkacc]
          intro hmem
          rcases List.mem_append.mp hmem with h | h
          · exact hfresh v' (List.mem_cons_of_mem _ hv') h
          · have hh : v'.vehicle_id = v.vehicle_id := by simpa using h
            exact hvnotin (hh ▸ List.mem_map_of_mem Vehicle.vehicle_id hv'))
    refine ⟨m, by rw [hstep]; exact hm, ?_, ?_, ?_⟩
    · rw [hkeys, hkacc, List.map_cons]
      simp [List.append_assoc]
    · intro k hk
      rw [List.map_cons] at hk
      have hk1 : k ≠ v.vehicle_id := fun h => hk (h ▸ List.mem_cons_self _ _)
      have hk2 : k ∉ rest.map Vehicle.vehicle_id := fun h => hk (List.mem_cons_of_mem _ h)
      rw [hpres k hk2, dictGet_dictSet_ne k v.vehicle_id _ acc hk1]
    · intro v' hv'
      rcases List.mem_cons.mp hv' with rfl | hv'
      · refine ⟨dl, hpa, ?_⟩
        rw [hpres v'.vehicle_id hvnotin]
        exact dictGet_dictSet_self v'.vehicle_id _ acc
      · exact hent v' hv'

/-- A successful prefix run composes with the resolver: after consuming
`dl₁` without an exit, `cltAux` on `dl₁ ++ cont` continues as `cltAux` on
`cont` from the reached state. -/
lemma cltRun_sound (ci : ConnectionInfo) (v : Vehicle) :
    ∀ (dl₁ : List Dir) (prev : Option Dir) (pl : Nat) (cur : Edge)
      (prev' : Option Dir) (pl' : Nat) (cur' : Edge),
      cltRun ci v dl₁ prev pl cur = some (prev', pl', cur') →
      ∀ cont, cltAux ci v (dl₁ ++ cont) prev pl cur = cltAux ci v cont prev' pl' cur' := by
  intro dl₁
  induction dl₁ with
  | nil =>
    intro prev pl cur prev' pl' cur' h cont
    rw [cltRun] at h
    injection h with h
    injection h with ha h
    injection h with hb hc
    subst ha
    subst hb
    subst hc
    rw [List.nil_append]
  | cons choice rest' ih =>
    intro prev pl cur prev' pl' cur' h cont
    rw [cltRun] at h
    split at h
    · split at h
      · exact Option.noConfusion h
      · split at h
        · exact Option.noConfusion h
        · split at h
          · exact Option.noConfusion h
          · rename_i h1 h2 hx e hd h3
            rw [List.cons_append, cltAux, if_pos h1, if_neg h2]
            simp only [hd]
            rw [if_neg h3]
            exact ih (some choice) (pl + ci.edge_length_dict e) e prev' pl' cur' h cont
    · exact Option.noConfusion h

/-! ### The local-target resolver: lookahead guarantee and loop guard -/

/-- On the `distReached` exit the accumulated `path_length` is strictly
above the lookahead threshold (the loop guard `path_length <=
max(current_speed, 20)` has just failed). -/
lemma cltAux_distReached_lt (ci : ConnectionInfo) (v : Vehicle) :
    ∀ (dl : List Dir) (prev : Option Dir) (pl : Nat) (cur : Edge),
      (cltAux ci v dl prev pl cur).2.1 = LTExit.distReached →
      max v.current_speed 20 < (cltAux ci v dl prev pl cur).2.2 := by
  intro dl
  induction dl with
  | nil =>
    intro prev pl cur
    rw [cltAux]
    by_cases h1 : pl ≤ max v.current_speed 20
    · by_cases h2 : cur = v.destination <;> simp [h1, h2]
    · simp [h1]
      omega
  | cons choice rest' ih =>
    intro prev pl cur
    rw [cltAux]
    by_cases h1 : pl ≤ max v.current_speed 20
    · by_cases h2 : cur = v.destination
      · simp [h1, h2]
      · simp only [if_pos h1, if_neg h2]
        cases hd : dictGet choice (ci.outgoing_edges_dict cur) with
        | none => simp
        | some e =>
          simp only []
          by_cases h3 : prev = some choice ∧ choice = "t"
          · simp [h3]
          · simp only [if_neg h3]
            exact ih (some choice) (pl + ci.edge_length_dict e) e
    · simp [h1]
      omega

/-- On the `atDest` exit the returned edge is the destination. -/
lemma cltAux_atDest_eq (ci : ConnectionInfo) (v : Vehicle) :
    ∀ (dl : List Dir) (prev : Option Dir) (pl : Nat) (cur : Edge),
      (cltAux ci v dl prev pl cur).2.1 = LTExit.atDest →
      (cltAux ci v dl prev pl cur).1 = v.destination := by
  intro dl
  induction dl with
  | nil =>
    intro prev pl cur
    rw [cltAux]
    by_cases h1 : pl ≤ max v.current_speed 20
    · by_cases h2 : cur = v.destination <;> simp [h1, h2]
    · simp [h1]
  | cons choice rest' ih =>
    intro prev pl cur
    rw [cltAux]
    by_cases h1 : pl ≤ max v.current_speed 20
    · by_cases h2 : cur = v.destination
      · simp [h1, h2]
      · simp only [if_pos h1, if_neg h2]
        cases hd : dictGet choice (ci.outgoing_edges_dict cur) with
        | none => simp
        | some e =>
          simp only []
          by_cases h3 : prev = some choice ∧ choice = "t"
          · simp [h3]
          · simp only [if_neg h3]
            exact ih (some choice) (pl + ci.edge_length_dict e) e
    · simp [h1]

/-- C1 as stated is false: on an empty decision list with the vehicle not
at its destination, `compute_local_target` returns the current edge at
accumulated path length 0, which is below `max(speed, 20) = 20`, and is not
the destination (this is the `exhausted` failure mode). -/
theorem C1_counterexample :
    ¬ (max vehAB.current_speed 20 ≤ (cltAux emptyCI vehAB [] none 0 vehAB.current_edge).2.2 ∨
       compute_local_target emptyCI [] vehAB = vehAB.destination) := by
  decide

/-- C1 (amended): whenever `compute_local_target` resolves without one of
the failure exits (decision-list exhaustion, invalid direction, turn-around
loop) — i.e. its walk ends by the lookahead guard or by reaching the
destination — the returned edge lies at cumulative path length at least
`max(current_speed, 20)` from the vehicle's current edge, or is the
destination edge. -/
theorem C1_amended (ci : ConnectionInfo) (v : Vehicle) (dl : List Dir)
    (h : (cltAux ci v dl none 0 v.current_edge).2.1 = LTExit.distReached ∨
         (cltAux ci v dl none 0 v.current_edge).2.1 = LTExit.atDest) :
    max v.current_speed 20 ≤ (cltAux ci v dl none 0 v.current_edge).2.2 ∨
    compute_local_target ci dl v = v.destination := by
  rcases h with h | h
  · exact Or.inl (Nat.le_of_lt (cltAux_distReached_lt ci v dl none 0 v.current_edge h))
  · exact Or.inr (cltAux_atDest_eq ci v dl none 0 v.current_edge h)

/-- Witness for `C1_amended`: on the one-edge snapshot `longCI` the walk
of `["s"]` stops with `path_length = 25 > 20`. -/
theorem C1_witness :
    ((cltAux longCI vehAZ ["s"] none 0 vehAZ.current_edge).2.1 = LTExit.distReached ∨
     (cltAux longCI vehAZ ["s"] none 0 vehAZ.current_edge).2.1 = LTExit.atDest) ∧
    (max vehAZ.current_speed 20 ≤ (cltAux longCI vehAZ ["s"] none 0 vehAZ.current_edge).2.2 ∨
     compute_local_target longCI ["s"] vehAZ = vehAZ.destination) :=
  ⟨by decide, C1_amended longCI vehAZ ["s"] (by decide)⟩

/-- C5: whenever two consecutive TURN_AROUND decisions occur anywhere in
the decision list — after any consumed prefix `dl₁` of the run — with the
pair reached below the lookahead threshold, before the destination, both
turn-arounds valid directions, and the pair genuinely consecutive (the
previous decision was not itself a TURN_AROUND), the resolver stops
immediately after consuming the second TURN_AROUND (exit `turnLoop`),
returning the edge that second turn-around leads to — for every
continuation `rest` of the decision list, which is therefore never
consumed. -/
theorem C5_turnaround (ci : ConnectionInfo) (v : Vehicle) (dl₁ rest : List Dir)
    (prev' : Option Dir) (pl' : Nat) (cur' e1 e2 : Edge)
    (hrun : cltRun ci v dl₁ none 0 v.current_edge = some (prev', pl', cur'))
    (h1 : pl' ≤ max v.current_speed 20)
    (hd1 : cur' ≠ v.destination)
    (hg1 : dictGet "t" (ci.outgoing_edges_dict cur') = some e1)
    (hprev : prev' ≠ some "t")
    (h2 : pl' + ci.edge_length_dict e1 ≤ max v.current_speed 20)
    (hd2 : e1 ≠ v.destination)
    (hg2 : dictGet "t" (ci.outgoing_edges_dict e1) = some e2) :
    cltAux ci v (dl₁ ++ "t" :: "t" :: rest) none 0 v.current_edge =
      (e2, LTExit.turnLoop, pl' + ci.edge_length_dict e1 + ci.edge_length_dict e2) ∧
    compute_local_target ci (dl₁ ++ "t" :: "t" :: rest) v = e2 := by
  have hmain : cltAux ci v (dl₁ ++ "t" :: "t" :: rest) none 0 v.current_edge =
      (e2, LTExit.turnLoop, pl' + ci.edge_length_dict e1 + ci.edge_length_dict e2) := by
    rw [cltRun_sound ci v dl₁ none 0 v.current_edge prev' pl' cur' hrun ("t" :: "t" :: rest)]
    rw [cltAux, if_pos h1, if_neg hd1]
    simp only [hg1]
    rw [if_neg (fun hc => hprev hc.1)]
    rw [cltAux, if_pos h2, if_neg hd2]
    simp only [hg2]
    rw [if_pos ⟨trivial, trivial⟩]
  exact ⟨hmain, by rw [compute_local_target, hmain]⟩

/-- Witness for `C5_turnaround` on the mid-list turn-around snapshot with
decision list `["s", "t", "t", "s"]`: the pair sits after a consumed
STRAIGHT prefix, the trailing STRAIGHT is never consumed, and the resolver
returns the edge after the second turn-around. -/
theorem C5_witness :
    (cltRun turnMidCI vehTurnMid ["s"] none 0 vehTurnMid.current_edge =
        some (some "s", 1, "B") ∧
      (1 : Nat) ≤ max vehTurnMid.current_speed 20 ∧
      ("B" : Edge) ≠ vehTurnMid.destination ∧
      dictGet "t" (turnMidCI.outgoing_edges_dict "B") = some "C" ∧
      (some "s" : Option Dir) ≠ some "t" ∧
      1 + turnMidCI.edge_length_dict "C" ≤ max vehTurnMid.current_speed 20 ∧
      ("C" : Edge) ≠ vehTurnMid.destination ∧
      dictGet "t" (turnMidCI.outgoing_edges_dict "C") = some "B") ∧
    (cltAux turnMidCI vehTurnMid (["s"] ++ "t" :: "t" :: ["s"]) none 0
        vehTurnMid.current_edge =
      ("B", LTExit.turnLoop,
        1 + turnMidCI.edge_length_dict "C" + turnMidCI.edge_length_dict "B") ∧
     compute_local_target turnMidCI (["s"] ++ "t" :: "t" :: ["s"]) vehTurnMid = "B") :=
  ⟨⟨by decide, by decide, by decide, by decide, by decide, by decide, by decide, by decide⟩,
   C5_turnaround turnMidCI vehTurnMid ["s"] ["s"] (some "s") 1 "B" "C" "B"
     (by decide) (by decide) (by decide) (by decide) (by decide) (by decide) (by decide)
     (by decide)⟩

/-! ### The congestion-aware acceptance condition -/

/-- C3 as stated is false: in the `tieCI` snapshot, during planning for
`vehTie` (deadline 10 above the batch average 5), the primary route from
`A` is `["s", "s"]` through `B` at distance 19, the alternative `C` has
equal occupancy and recomputed distance 18, so the source accepts it
(`viableAlt ∧ acceptOver` holds and the planned list starts with `"l"`),
while the claim's condition — alternative edge length plus recomputed
distance, `8 + 18 = 26 < 19` — fails (`specAccepts` is false). -/
theorem C3_counterexample :
    (viableAlt tieCI "Z" ["A"] "B" "C" ∧ acceptOver tieCI "B" "C" 19 18) ∧
    ¬ specAccepts tieCI "Z" ["A"] "B" 19 "C" 18 ∧
    planAux tieCI 5 vehTie (planFuel tieCI) "A" [] [] 0 [] = PRes.ok ["l", "s"] ∧
    find_route tieCI "A" "Z" 10 = some (["s", "s"], 19) ∧
    find_route tieCI "C" "Z" 10 = some (["s"], 18) :=
  ⟨by decide, by decide, by decide, by decide, by decide⟩

/-- C3 (amended): the alternative is accepted exactly when it is viable
(destination or not a dead end, not previously visited this tick, occupancy
at most the primary's, primary not the destination) and either its
occupancy is strictly lower, or occupancies tie and the recomputed route
distance from the alternative edge — which by `find_route`'s convention
already includes the alternative edge's own length — is strictly less than
the primary's distance. -/
theorem C3_amended (ci : ConnectionInfo) (dest : Edge) (edges : List Edge)
    (out_edge : Edge) (distance : Nat) (out_edge2 : Edge) (distance2 : Nat) :
    (viableAlt ci dest edges out_edge out_edge2 ∧
      acceptOver ci out_edge out_edge2 distance distance2) ↔
    specAcceptsAmended ci dest edges out_edge distance out_edge2 distance2 := by
  unfold viableAlt acceptOver specAcceptsAmended
  constructor
  · rintro ⟨⟨ha, hb, hc, hd⟩, hacc⟩
    exact ⟨⟨ha, hb, hc, hd⟩, by omega⟩
  · rintro ⟨⟨ha, hb, hc, hd⟩, hacc⟩
    exact ⟨⟨ha, hb, hc, hd⟩, by omega⟩

/-! ### Determinism of the default policy -/

/-- C7: `make_decisions` is deterministic — two invocations on equal
vehicle batches, equal snapshots and equal `avg_deadline` return equal
mappings.  The embedding is a pure function of these inputs, which is
faithful because the source's default policy reads no global or random
state (the `random` import is unused by `RandomPolicy.make_decisions`). -/
theorem C7_deterministic (ci ci' : ConnectionInfo) (vs vs' : List Vehicle) (a a' : Nat)
    (hci : ci = ci') (hvs : vs = vs') (ha : a = a') :
    make_decisions ci vs a = make_decisions ci' vs' a' := by
  subst hci; subst hvs; subst ha; rfl

/-- Witness for `C7_deterministic` on the diamond scenario. -/
theorem C7_witness :
    diamondCI = diamondCI ∧ [vehDiamond] = [vehDiamond] ∧ (5 : Nat) = 5 ∧
    make_decisions diamondCI [vehDiamond] 5 = make_decisions diamondCI [vehDiamond] 5 :=
  ⟨rfl, rfl, rfl, C7_deterministic diamondCI diamondCI [vehDiamond] [vehDiamond] 5 5 rfl rfl rfl⟩

/-! ### The end-to-end diamond scenario -/

/-- C9: on the diamond (`A -s-> B`, `A -l-> C`, `B -s-> D`, `C -s-> D`,
all lengths 10, occupancy 0 on `B` and 5 on `C`) with the entity on `A`,
destination `D`, speed 5 and deadline 10 above the `avg_deadline` of 5,
planning produces the decision list `["s", "s"]`, whose first element `"s"`
is the direction from `A` toward `B`; the full `make_decisions` run then
assigns the entity local target `D`. -/
theorem C9_endToEnd :
    planAux diamondCI 5 vehDiamond (planFuel diamondCI) vehDiamond.current_edge [] [] 0 [] =
      PRes.ok ["s", "s"] ∧
    dictGet "s" (diamondCI.outgoing_edges_dict "A") = some "B" ∧
    make_decisions diamondCI [vehDiamond] 5 = MDRes.ok [("veh", "D")] :=
  ⟨by decide, by decide, by decide⟩

/-! ### Error recovery and the per-entity mapping invariant -/

/-- C4: each of the four per-entity failure modes (no route found,
decision-list exhaustion before the lookahead threshold, a decision absent
from the current edge's outgoing map, two consecutive turn-around
decisions) is recovered locally: for every decision list whatsoever the
resolver returns the last edge reached along a consumed prefix
(best-effort), and on a well-formed snapshot with all vehicle endpoints
listed, `make_decisions` returns a mapping - it neither raises an
exception to the caller nor aborts the batch. -/
theorem C4_error_recovery (ci : ConnectionInfo) (vehicles : List Vehicle) (avg : Nat)
    (hwf : WellFormed ci)
    (hveh : ∀ v ∈ vehicles, v.current_edge ∈ ci.edge_list ∧ v.destination ∈ ci.edge_list) :
    (∀ (dl : List Dir) (v2 : Vehicle), ∃ dl₁ dl₂, dl = dl₁ ++ dl₂ ∧
      (followCost ci v2.current_edge dl₁).map Prod.fst =
        some (compute_local_target ci dl v2)) ∧
    ∃ m, make_decisions ci vehicles avg = MDRes.ok m := by
  obtain ⟨hclosL, hnodout, hposL⟩ := hwf
  constructor
  · intro dl v2
    exact cltAux_reaches ci v2 dl none 0 v2.current_edge
  · exact mdAux_ok_total ci avg hclosL hnodout hposL vehicles [] hveh

/-- Witness for `C4_error_recovery` on the tie snapshot with its single
vehicle: the hypotheses hold and the theorem applies. -/
theorem C4_witness :
    WellFormed tieCI ∧
    (∀ v ∈ [vehTie], v.current_edge ∈ tieCI.edge_list ∧ v.destination ∈ tieCI.edge_list) ∧
    ((∀ (dl : List Dir) (v2 : Vehicle), ∃ dl₁ dl₂, dl = dl₁ ++ dl₂ ∧
        (followCost tieCI v2.current_edge dl₁).map Prod.fst =
          some (compute_local_target tieCI dl v2)) ∧
      ∃ m, make_decisions tieCI [vehTie] 5 = MDRes.ok m) := by
  have hwf : WellFormed tieCI :=
    ⟨by decide, fun e => by
        show (keys (if e = "A" then [("s", "B"), ("l", "C")]
          else if e = "B" then [("s", "Z")]
          else if e = "C" then [("s", "Z")]
          else [])).Nodup
        split_ifs <;> decide,
      by decide⟩
  exact ⟨hwf, by decide, C4_error_recovery tieCI [vehTie] 5 hwf (by decide)⟩

/-- C8: on a well-formed snapshot, for every batch of vehicles with
pairwise-distinct identifiers and listed endpoints, `make_decisions`
returns a mapping whose keys are exactly the vehicle identifiers in batch
order (one entry per vehicle); each entry is `compute_local_target` of the
vehicle's planned decision list, and when that list is empty (no valid
decision) the entry points back at the vehicle's current edge. -/
theorem C8_exactly_one_entry (ci : ConnectionInfo) (vehicles : List Vehicle) (avg : Nat)
    (hwf : WellFormed ci)
    (hids : (vehicles.map Vehicle.vehicle_id).Nodup)
    (hveh : ∀ v ∈ vehicles, v.current_edge ∈ ci.edge_list ∧ v.destination ∈ ci.edge_list) :
    ∃ m, make_decisions ci vehicles avg = MDRes.ok m ∧
      keys m = vehicles.map Vehicle.vehicle_id ∧
      ∀ v ∈ vehicles, ∃ dl,
        planAux ci avg v (planFuel ci) v.current_edge [] [] 0 [] = PRes.ok dl ∧
        dictGet v.vehicle_id m = some (compute_local_target ci dl v) ∧
        (dl = [] → dictGet v.vehicle_id m = some v.current_edge) := by
  obtain ⟨hclosL, hnodout, hposL⟩ := hwf
  obtain ⟨m, hm, hkeys, _, hent⟩ := mdAux_ok ci avg hclosL hnodout hposL vehicles []
    hveh hids (fun _ _ => List.not_mem_nil _)
  refine ⟨m, by rw [make_decisions]; exact hm, by rw [hkeys]; simp [keys], ?_⟩
  intro v hv
  obtain ⟨dl, hpa, hget⟩ := hent v hv
  refine ⟨dl, hpa, hget, ?_⟩
  intro h0
  rw [hget, h0, compute_local_target_nil]

/-- Witness for `C8_exactly_one_entry` on the diamond scenario with its
single vehicle: the hypotheses hold and the theorem applies. -/
theorem C8_witness :
    WellFormed diamondCI ∧
    ([vehDiamond].map Vehicle.vehicle_id).Nodup ∧
    (∀ v ∈ [vehDiamond], v.current_edge ∈ diamondCI.edge_list ∧
      v.destination ∈ diamondCI.edge_list) ∧
    ∃ m, make_decisions diamondCI [vehDiamond] 5 = MDRes.ok m ∧
      keys m = [vehDiamond].map Vehicle.vehicle_id ∧
      ∀ v ∈ [vehDiamond], ∃ dl,
        planAux diamondCI 5 v (planFuel diamondCI) v.current_edge [] [] 0 [] = PRes.ok dl ∧
        dictGet v.vehicle_id m = some (compute_local_target diamondCI dl v) ∧
        (dl = [] → dictGet v.vehicle_id m = some v.current_edge) := by
  have hwf : WellFormed diamondCI :=
    ⟨by decide, fun e => by
        show (keys (if e = "A" then [("s", "B"), ("l", "C")]
          else if e = "B" then [("s", "D")]
          else if e = "C" then [("s", "D")]
          else [])).Nodup
        split_ifs <;> decide,
      by decide⟩
  exact ⟨hwf, by decide, by decide,
    C8_exactly_one_entry diamondCI [vehDiamond] 5 hwf (by decide) (by decide)⟩

end STR
